import Mathlib

/-!
Verification development for the META prefix autocompletion engine
(module strprox/prefix/meta/mod.rs).

Modelling conventions, used consistently below:
* Strings are lists of Unicode scalar values (Lean Char), matching Rust char.
  Rust orders str values by UTF-8 bytes, which coincides with lexicographic
  order on scalar values, so list-of-char lexicographic order is faithful.
* The source tracks suffix offsets in bytes; those offsets always sit on
  character boundaries (they equal the byte length of the current prefix), so
  they are modelled as character counts.
* Machine integers are Nat together with explicit wrap-around where the source
  can overflow: usize subtraction wraps modulo 2^64 and "as u8" casts truncate
  modulo 2^8, i.e. release-mode (wrapping) semantics.  Operations that panic in
  every build profile (Option unwrap on None, slice/Vec index out of bounds)
  are modelled with Option, None meaning a panic.
* HashMap and HashSet are modelled as association lists; every consumer of
  their iteration order in the source is order-insensitive (min-merging,
  idempotent inserts of one value, or a final sort), so the fixed list order
  is harmless.
* Vec::binary_search / partition_point over a sorted slice are modelled by
  countP of the search predicate over the slice, which is the value the
  source itself asserts (debug_assert_eq with slice::partition_point).
-/

/-- usize wrap-around constant, 2^64. -/
def W64 : Nat := 18446744073709551616

/-- Wrapping usize subtraction: a - b with two's-complement wrap (release mode). -/
def wsub (a b : Nat) : Nat := (a % W64 + (W64 - b % W64)) % W64

/-- Truncating cast to u8 (the source's UUU type). -/
def u8cast (n : Nat) : Nat := n % 256

/-- Wrapping u8 subtraction. -/
def wsub8 (a b : Nat) : Nat := (a % 256 + (256 - b % 256)) % 256

/-- usize::abs_diff. -/
def natAbsDiff (a b : Nat) : Nat := if b ≤ a then a - b else b - a

/-- Byte length of a string (str::len in the source). -/
def utf8Len (s : List Char) : Nat := (s.map Char.utf8Size).sum

/-- Lexicographic strict order on strings by scalar value, matching Rust's
Ord for str (UTF-8 byte order equals scalar-value order). -/
def strLt : List Char → List Char → Bool
  | [], [] => false
  | [], _ :: _ => true
  | _ :: _, [] => false
  | a :: as, b :: bs => a < b || (a = b && strLt as bs)

/-- Companion non-strict order, used as the comparator for sorting. -/
def strLe (a b : List Char) : Bool := strLt a b || a = b

/-- Insert into a sorted list in front of the first element not below x
(auxiliary for insSort). -/
def insertSorted (le : α → α → Bool) (x : α) : List α → List α
  | [] => [x]
  | y :: ys => if le x y then x :: y :: ys else y :: insertSorted le x ys

/-- Stable insertion sort.  Vec::sort and Vec::sort_unstable in the source
sort by a total order; a stable sort by a total order is a unique function of
its input, so this structurally recursive sort is extensionally the same
function as the source's (and unlike well-founded mergeSort it reduces inside
the kernel). -/
def insSort (le : α → α → Bool) : List α → List α
  | [] => []
  | x :: xs => insertSorted le x (insSort le xs)

/-- Vec::dedup after sorting: remove adjacent equal strings. -/
def dedupAdj : List (List Char) → List (List Char)
  | [] => []
  | [a] => [a]
  | a :: b :: rest => if a = b then dedupAdj (b :: rest) else a :: dedupAdj (b :: rest)

/-- char_succ from the source: the next valid Unicode scalar value after c,
None for char::MAX.  The iterator (c..=char::MAX).nth(1) skips the surrogate
gap, so the successor of U+D7FF is U+E000. -/
def charSucc (c : Char) : Option Char :=
  if c.toNat = 1114111 then none
  else
    let n := if c.toNat = 55295 then 57344 else c.toNat + 1
    if h : n.isValidChar then some ⟨UInt32.ofNat n, by
      have hlt : n < 4294967296 := by
        rcases h with h1 | h2
        · omega
        · omega
      show (UInt32.ofNat n).toNat.isValidChar
      have : (UInt32.ofNat n).toNat = n := by
        simp [UInt32.ofNat, UInt32.toNat, Fin.ofNat]
        omega
      rw [this]; exact h⟩
    else none

/-- Trie node (struct Node<UUU, SSS>): character, half-open descendant id
range, half-open stored-string range, depth. -/
structure TrieNode where
  character : Char
  descendantRange : Nat × Nat
  stringRange : Nat × Nat
  depth : Nat
deriving DecidableEq, Repr

instance : Inhabited TrieNode := ⟨⟨Char.ofNat 0, (0, 0), (0, 0), 0⟩⟩

/-- Node::id: the index into the trie where the node is,
descendant_range.start - 1. -/
def TrieNode.nodeId (n : TrieNode) : Nat := n.descendantRange.1 - 1

/-- Argument package distinguishing the two recursion sites of
Trie::init_nodes: a call of init_nodes itself (node), or one iteration of its
while loop over child_start (loop). -/
inductive BuildCmd where
  | node (depth : Nat) (pfx : List Char) (lastChar : Char) (suffixStart start stop : Nat)
  | loop (depth : Nat) (pfx : List Char) (suffixStart start childStart stop : Nat)
deriving DecidableEq, Repr

/-- Trie::init_nodes together with its while loop, as one structurally
recursive function.  The Nat is fuel consumed once per init_nodes call and
once per loop iteration; Trie.new supplies enough fuel and the exhaustion
branch (which returns the nodes unchanged) is unreachable for the trees
Trie.new builds.  A node call pushes the current node (id = current vector
length, as the source asserts), runs the loop, then sets the node's
descendant range to the ids appended after it.  A loop iteration either
stops at child_start = stop, or skips a string equal to the current prefix,
or delimits the child group with the lexicographic-marker search
(binary_search modelled as countP of the below-marker predicate over the
sorted slice, the value the source's debug_assert gives) and recurses into
the child before continuing behind the group. -/
def initGo (strings : List (List Char)) : Nat → BuildCmd → List TrieNode → List TrieNode
  | 0, _, nodes => nodes
  | fuel + 1, .node depth pfx lastChar suffixStart start stop, nodes =>
    let currentId := nodes.length
    let pushed := nodes ++ [⟨lastChar, (0, 0), (start, stop), depth⟩]
    let built := initGo strings fuel (.loop depth pfx suffixStart start start stop) pushed
    built.set currentId { built.getD currentId default with descendantRange := (currentId + 1, built.length) }
  | fuel + 1, .loop depth pfx suffixStart start childStart stop, nodes =>
    if childStart = stop then nodes
    else
      match ((strings.getD childStart []).drop suffixStart).head? with
      | some nextChar =>
        let childEnd :=
          match charSucc nextChar with
          | some succ =>
            let marker := pfx ++ [succ]
            start + ((strings.drop start).take (stop - start)).countP (fun s => strLt s marker)
          | none => stop
        let built := initGo strings fuel (.node (depth + 1) (pfx ++ [nextChar]) nextChar (suffixStart + 1) childStart childEnd) nodes
        initGo strings fuel (.loop depth pfx suffixStart start childEnd stop) built
      | none => initGo strings fuel (.loop depth pfx suffixStart start (childStart + 1) stop) nodes

/-- Entry point of the node construction, Trie::init_nodes. -/
def initNodes (strings : List (List Char)) (fuel depth : Nat) (pfx : List Char) (lastChar : Char) (suffixStart start stop : Nat) (nodes : List TrieNode) : List TrieNode :=
  initGo strings fuel (.node depth pfx lastChar suffixStart start stop) nodes

/-- The trie (struct Trie): node vector plus the sorted, deduplicated
stored strings. -/
structure Trie where
  nodes : List TrieNode
  strings : List (List Char)
deriving DecidableEq, Repr

/-- Fuel sufficient to build the whole trie: one unit per loop iteration and
per node call, which is bounded by the string count plus twice the total
character count (proved where needed). -/
def buildFuel (strings : List (List Char)) : Nat :=
  strings.length + 2 * (strings.map List.length).sum + 2

/-- Trie::new: sort, dedup, then build all nodes starting from the root
(character U+0000, depth 0, covering the whole dataset). -/
def Trie.new (source : List (List Char)) : Trie :=
  let strings := dedupAdj (insSort strLe source)
  let nodes := initNodes strings (buildFuel strings) 0 [] (Char.ofNat 0) 0 0 strings.length []
  ⟨nodes, strings⟩

/-- Trie::root modelled without the panic: the first node if any.  The source
unwraps; Trie.new is proved to always produce at least one node. -/
def Trie.root (t : Trie) : Option TrieNode := t.nodes.head?

/-- Association-list get for the per-depth char map (HashMap char -> Vec ids). -/
def alGet (m : List (Char × List Nat)) (c : Char) : Option (List Nat) :=
  (m.find? (fun e => e.1 = c)).map (fun e => e.2)

/-- Push a node id onto the bucket for character c, inserting the bucket if
absent (InvertedIndex::new inner loop body). -/
def alPush (m : List (Char × List Nat)) (c : Char) (id : Nat) : List (Char × List Nat) :=
  if (m.find? (fun e => e.1 = c)).isSome then
    m.map (fun e => if e.1 = c then (e.1, e.2 ++ [id]) else e)
  else
    m ++ [(c, [id])]

/-- Inverted index (struct InvertedIndex): depth-indexed vector of maps from
character to the node ids at that depth bearing that character. -/
structure InvIndex where
  index : List (List (Char × List Nat))
deriving DecidableEq, Repr

/-- Maximum node depth over the trie, first loop of InvertedIndex::new. -/
def trieMaxDepth (nodes : List TrieNode) : Nat :=
  nodes.foldl (fun a n => max a n.depth) 0

/-- InvertedIndex::new: every node (the root included) is pushed into the
bucket at (its depth, its character), then each bucket is sorted ascending. -/
def InvIndex.new (nodes : List TrieNode) : InvIndex :=
  let maxDepth := trieMaxDepth nodes
  let empty : List (List (Char × List Nat)) := List.replicate (maxDepth + 1) []
  let idx := nodes.foldl (fun ix n => ix.set n.depth (alPush (ix.getD n.depth []) n.character n.nodeId)) empty
  ⟨idx.map (fun cm => cm.map (fun e => (e.1, insSort (fun a b => Nat.ble a b) e.2)))⟩

/-- InvertedIndex::get.  The source indexes self.index[depth] before the map
lookup, which panics when depth exceeds the index length; the outer None is
that panic, the inner Option is the map lookup. -/
def InvIndex.get (ix : InvIndex) (depth : Nat) (c : Char) : Option (Option (List Nat)) :=
  if depth < ix.index.length then some (alGet (ix.index.getD depth []) c) else none

/-- InvertedIndex::max_depth: index.len() - 1. -/
def InvIndex.maxDepth (ix : InvIndex) : Nat := ix.index.length - 1

/-- The autocompleter (struct MetaAutocompleter): trie plus inverted index. -/
structure Meta where
  trie : Trie
  invertedIndex : InvIndex
deriving DecidableEq, Repr

/-- MetaAutocompleter::new. -/
def Meta.new (source : List (List Char)) : Meta :=
  let t := Trie.new source
  ⟨t, InvIndex.new t.nodes⟩

/-- A matching (struct Matching): query prefix length, node id, edit distance.
The first and last fields are u8 in the source; values are kept below 256 by
the casts at each construction site. -/
structure Matching where
  queryPrefixLen : Nat
  node : Nat
  editDistance : Nat
deriving DecidableEq, Repr

/-- Matching::deduced_edit_distance: upper bound on the edit distance between
the query prefix of length queryLen and a stored prefix of length storedLen
(both saturating subtractions as in the source). -/
def deducedED (m : Matching) (queryLen storedLen : Nat) (nodes : List TrieNode) : Nat :=
  m.editDistance + max (queryLen - m.queryPrefixLen) (storedLen - (nodes.getD m.node default).depth)

/-- Matching set (struct MatchingSet): map from (query_prefix_len, node) to
edit distance, modelled as an association list with HashMap lookup
semantics. -/
structure MatchingSet where
  matchings : List ((Nat × Nat) × Nat)
deriving DecidableEq, Repr

/-- HashMap::insert: overwrite the value at the key if present, else append. -/
def mapInsert (m : List ((Nat × Nat) × Nat)) (k : Nat × Nat) (v : Nat) : List ((Nat × Nat) × Nat) :=
  if (m.find? (fun e => e.1 = k)).isSome then
    m.map (fun e => if e.1 = k then (k, v) else e)
  else
    m ++ [(k, v)]

/-- HashMap::get as used on the matchings map. -/
def mapGet (m : List ((Nat × Nat) × Nat)) (k : Nat × Nat) : Option Nat :=
  (m.find? (fun e => e.1 = k)).map (fun e => e.2)

/-- HashMap::extend: insert every pair of the second map into the first. -/
def mapExtend (a b : List ((Nat × Nat) × Nat)) : List ((Nat × Nat) × Nat) :=
  b.foldl (fun acc e => mapInsert acc e.1 e.2) a

/-- MatchingSet::insert: plain HashMap::insert of the new edit distance at
(query_prefix_len, node); an existing entry is overwritten. -/
def MatchingSet.insert (s : MatchingSet) (m : Matching) : MatchingSet :=
  ⟨mapInsert s.matchings (m.queryPrefixLen, m.node) m.editDistance⟩

/-- MatchingSet::contains. -/
def MatchingSet.contains (s : MatchingSet) (queryPrefixLen node : Nat) : Bool :=
  (mapGet s.matchings (queryPrefixLen, node)).isSome

/-- MatchingSet::new_trie: the singleton matching of the root and the empty
query.  trie.root().id() is descendant_range.start - 1 of the first node. -/
def MatchingSet.newTrie (t : Trie) : MatchingSet :=
  ⟨[((0, (t.nodes.headD default).nodeId), 0)]⟩

/-- MetaAutocompleter::traverse_inverted_index: the ids in the bucket at
(depth, character) that lie in the matching node's descendant range, obtained
by the two partition points over the sorted bucket.  None models the panic of
index[depth] when depth is out of bounds. -/
def traverseII (m : Meta) (matching : Matching) (depth : Nat) (character : Char) : Option (List Nat) :=
  let node := m.trie.nodes.getD matching.node default
  match m.invertedIndex.get depth character with
  | none => none
  | some none => some []
  | some (some ids) =>
    let start := (ids.takeWhile (fun id => id < node.descendantRange.1)).length
    let stop := (ids.takeWhile (fun id => id < node.descendantRange.2)).length
    some ((ids.drop start).take (stop - start))

/-- Body of the visitor in MetaAutocompleter::first_deducing: min-merge the
deduced edit distance for the descendant when it is within budget. -/
def fdVisit (m : Meta) (m1 : Matching) (queryLen depth b : Nat) (ed : List (Nat × Nat)) (n2 : Nat) : List (Nat × Nat) :=
  let ded := u8cast (deducedED m1 (queryLen - 1) (depth - 1) m.trie.nodes)
  if ded ≤ u8cast b then
    match ed.find? (fun e => e.1 = n2) with
    | some e => ed.map (fun p => if p.1 = n2 then (p.1, min e.2 ded) else p)
    | none => ed ++ [(n2, ded)]
  else ed

/-- MetaAutocompleter::first_deducing: extend P(i-1, b) to P(i, b) for the
query character at position i (the source receives i as query_len).  The
usize subtractions query_len - 1 - b and query_len - 1 wrap (release mode)
before the u8 casts.  None models the inverted-index depth panic, which this
function's depth bound in fact prevents. -/
def firstDeducing (m : Meta) (set : MatchingSet) (character : Char) (queryLen b : Nat) : Option MatchingSet := do
  let lowB := u8cast (wsub (wsub queryLen 1) b)
  let highB := u8cast (wsub queryLen 1)
  let ed ← set.matchings.foldlM (fun (ed : List (Nat × Nat)) kv => do
    let i1 := kv.1.1
    let n1 := kv.1.2
    let e1 := kv.2
    if e1 ≤ u8cast b ∧ lowB ≤ i1 ∧ i1 ≤ highB then
      let m1 : Matching := ⟨i1, n1, e1⟩
      let d1 := (m.trie.nodes.getD n1 default).depth
      (List.range' (d1 + 1) (min (d1 + b + 1) m.invertedIndex.maxDepth + 1 - (d1 + 1))).foldlM
        (fun (ed : List (Nat × Nat)) depth => do
          if natAbsDiff queryLen depth ≤ b then
            let ids ← traverseII m m1 depth character
            pure (ids.foldl (fdVisit m m1 queryLen depth b) ed)
          else
            pure ed) ed
    else
      pure ed) []
  pure ⟨ed.foldl (fun (delta : List ((Nat × Nat) × Nat)) p =>
    mapInsert delta (u8cast queryLen, p.1) p.2) []⟩

/-- last_depth of MetaAutocompleter::second_deducing:
min(depth(node) + b - edit_distance + 1, max_depth), wrapping subtraction. -/
def lastDepthOf (m : Meta) (b : Nat) (mt : Matching) : Nat :=
  min (wsub ((m.trie.nodes.getD mt.node default).depth + b) mt.editDistance + 1) m.invertedIndex.maxDepth

/-- last_query_prefix_len of MetaAutocompleter::second_deducing:
min(query_prefix_len + b - edit_distance + 1, query_len). -/
def lastQplOf (b queryLen : Nat) (mt : Matching) : Nat :=
  min (wsub (mt.queryPrefixLen + b) mt.editDistance + 1) queryLen

/-- The check closure of second_deducing: accept (qpl, node, b) into the
accumulating delta iff the input set has no entry at (qpl, node) and the
deduced edit distance against the stored prefix one shorter than the
descendant's is exactly b. -/
def checkFn (m : Meta) (set : MatchingSet) (b : Nat) (mt : Matching) (acc : MatchingSet) (node : Nat) (qpl : Nat) : MatchingSet :=
  let descendant := m.trie.nodes.getD node default
  if ¬ set.contains (u8cast qpl) node ∧ deducedED mt (wsub qpl 1) (wsub descendant.depth 1) m.trie.nodes = b then
    acc.insert ⟨u8cast qpl, node, u8cast b⟩
  else acc

/-- First loop of second_deducing's per-matching closure: for each query
prefix length strictly between the matching's and last_query_prefix_len,
enumerate descendants at (last_depth, query[qpl - 1]) and check at qpl. -/
def columnPhase (m : Meta) (set : MatchingSet) (q : List Char) (queryLen b : Nat) (mt : Matching) (acc : MatchingSet) : Option MatchingSet :=
  let lastD := lastDepthOf m b mt
  let lastQ := lastQplOf b queryLen mt
  (List.range' (mt.queryPrefixLen + 1) (lastQ - (mt.queryPrefixLen + 1))).foldlM
    (fun (acc : MatchingSet) qpl => do
      let character ← q.get? (qpl - 1)
      if natAbsDiff qpl lastD ≤ b then
        let ids ← traverseII m mt lastD character
        pure (ids.foldl (fun a id => checkFn m set b mt a id qpl) acc)
      else
        pure acc) acc

/-- Second loop of second_deducing's per-matching closure: for each depth
strictly between the matching node's and last_depth, enumerate descendants at
(depth, last_character) and check at last_query_prefix_len. -/
def rowPhase (m : Meta) (set : MatchingSet) (lastChar : Char) (b : Nat) (mt : Matching) (lastQ : Nat) (acc : MatchingSet) : Option MatchingSet :=
  let lastD := lastDepthOf m b mt
  let d := (m.trie.nodes.getD mt.node default).depth
  (List.range' (d + 1) (lastD - (d + 1))).foldlM
    (fun (acc : MatchingSet) depth => do
      if natAbsDiff lastQ depth ≤ b then
        let ids ← traverseII m mt depth lastChar
        pure (ids.foldl (fun a id => checkFn m set b mt a id lastQ) acc)
      else
        pure acc) acc

/-- Final traversal of second_deducing's per-matching closure: the source
passes last_query_prefix_len as the depth argument of
traverse_inverted_index (not last_depth) with last_character, and checks at
last_query_prefix_len. -/
def cornerPhase (m : Meta) (set : MatchingSet) (lastChar : Char) (b : Nat) (mt : Matching) (lastQ : Nat) (acc : MatchingSet) : Option MatchingSet := do
  let ids ← traverseII m mt lastQ lastChar
  pure (ids.foldl (fun a id => checkFn m set b mt a id lastQ) acc)

/-- The per_matching closure of second_deducing: column loop, then the read
of query[last_query_prefix_len - 1] (an index panic when out of range, with
the wrapped subtraction when last_query_prefix_len is 0), then row loop and
corner traversal. -/
def perMatching (m : Meta) (set : MatchingSet) (q : List Char) (queryLen b : Nat) (mt : Matching) (acc : MatchingSet) : Option MatchingSet := do
  let acc ← columnPhase m set q queryLen b mt acc
  let lastQ := lastQplOf b queryLen mt
  let lastChar ← q.get? (wsub lastQ 1)
  let acc ← rowPhase m set lastChar b mt lastQ acc
  cornerPhase m set lastChar b mt lastQ acc

/-- MetaAutocompleter::second_deducing: expand P(i, b-1) to P(i, b),
returning the delta.  The input set is filtered to matchings with
edit_distance <= b - 1 (u8 wrapping) and query_prefix_len <= query_len. -/
def secondDeducing (m : Meta) (set : MatchingSet) (q : List Char) (queryLen b : Nat) : Option MatchingSet :=
  set.matchings.foldlM
    (fun (acc : MatchingSet) kv =>
      if kv.2 ≤ wsub8 (u8cast b) 1 ∧ kv.1.1 ≤ u8cast queryLen then
        perMatching m set q queryLen b ⟨kv.1.1, kv.1.2, kv.2⟩ acc
      else
        pure acc)
    ⟨[]⟩

/-- Cache entry (struct PState): the computed matching-set rows for this
prefix, the last-visit timestamp (Instant modelled as a Nat counter), and the
slab index of the prefix.  Timestamps are produced by a strictly increasing
counter, a faithful possible behaviour of Instant::now. -/
structure PState where
  sets : List MatchingSet
  prio : Nat
  ix : Nat
deriving DecidableEq, Repr

/-- The query cache (struct Cache): the prefix trie of cached queries
(modelled from the spec, section 4.5, and the ptrie dependency as a map from
character sequences to PState), the slab of stored prefixes, the reverse
timestamp index (BTreeMap Instant -> BTreeSet of slab indices, kept sorted by
timestamp), and the Instant counter. -/
structure Cache where
  cachedPfx : List (List Char × PState)
  slab : List (List Char)
  prioMap : List (Nat × List Nat)
  now : Nat
deriving DecidableEq, Repr

/-- The empty cache (Cache::default). -/
def Cache.empty : Cache := ⟨[], [], [], 0⟩

/-- ptrie value lookup at an exact key. -/
def ptGet (pt : List (List Char × PState)) (k : List Char) : Option PState :=
  (pt.find? (fun e => e.1 = k)).map (fun e => e.2)

/-- ptrie insert: overwrite the value at the key if present, else append. -/
def ptInsert (pt : List (List Char × PState)) (k : List Char) (v : PState) : List (List Char × PState) :=
  if (pt.find? (fun e => e.1 = k)).isSome then
    pt.map (fun e => if e.1 = k then (k, v) else e)
  else
    pt ++ [(k, v)]

/-- Update the PState stored at a key, if present. -/
def ptMapAt (pt : List (List Char × PState)) (k : List Char) (f : PState → PState) : List (List Char × PState) :=
  pt.map (fun e => if e.1 = k then (e.1, f e.2) else e)

/-- Modelled from the spec: ptrie find_prefixes (the ptrie dependency is not
under src).  Returns, in increasing length order, one pair per nonempty
cached prefix of the query: the character position of the prefix's last
character and its entry.  Position before-the-last is forced by the use at
the call sites, which index query_chars[..=i] with the returned positions. -/
def findPfxs (pt : List (List Char × PState)) (q : List Char) : List (Nat × PState) :=
  (List.range q.length).filterMap (fun i => (ptGet pt (q.take (i + 1))).map (fun st => (i, st)))

/-- CacheMap::rm: remove a slab index from the set stored at a timestamp. -/
def prioRm (p : List (Nat × List Nat)) (t : Nat) (k : Nat) : List (Nat × List Nat) :=
  p.map (fun e => if e.1 = t then (e.1, e.2.filter (fun x => x ≠ k)) else e)

/-- Cache::visit: look up every cached prefix of the query and unlink each
from the timestamp index; if every character position of the query is cached
(the source compares the number of hits against the query's byte length),
bump the deepest entry's timestamp via li.last().unwrap() - a panic (None)
when the list is empty, as happens for the empty query - otherwise insert a
fresh empty entry for the full query (overwriting and thus resetting any
existing entry) and re-collect the prefixes. -/
def Cache.visit (c : Cache) (q : List Char) : Option (List (Nat × PState) × Cache) :=
  let li := findPfxs c.cachedPfx q
  let c1 : Cache := { c with prioMap := li.foldl (fun p e => prioRm p e.2.prio e.2.ix) c.prioMap }
  if li.length = utf8Len q then
    match li.getLast? with
    | none => none
    | some tip =>
      let c2 : Cache := { c1 with
        prioMap := prioRm c1.prioMap tip.2.prio tip.2.ix,
        cachedPfx := ptMapAt c1.cachedPfx q (fun st => { st with prio := c1.now }),
        now := c1.now + 1 }
      some (findPfxs c2.cachedPfx q, c2)
  else
    let ix := c1.slab.length
    let c2 : Cache := { c1 with
      slab := c1.slab ++ [q],
      cachedPfx := ptInsert c1.cachedPfx q ⟨[], c1.now, ix⟩,
      now := c1.now + 1 }
    some (findPfxs c2.cachedPfx q, c2)

/-- MetaAutocompleter::assemble: visit the cache, compute a row for every
missing position by one first_deducing step from the root matching set (the
accumulator acc is never updated between iterations, and the call always
passes the last query character and the full query length), store it, visit
again, fold the cached rows' sets[0] into row1 (a panic when a row is empty,
e.g. after visit reset an entry), then raise the budget with
second_deducing.  None models any of the panics on the way. -/
def assemble (m : Meta) (q : List Char) (b : Nat) (cache : Cache) : Option (MatchingSet × Cache) := do
  let queryChars := q
  let (li, cache) ← cache.visit q
  let missing := (li.filter (fun x => x.2.sets.length < 1)).map (fun x => x.1)
  let acc := MatchingSet.newTrie m.trie
  let cache ← (List.range (utf8Len q)).foldlM (fun (cache : Cache) i => do
    if i ∈ missing then
      let lastc ← queryChars.getLast?
      let s ← firstDeducing m acc lastc queryChars.length b
      if i < queryChars.length ∧ (ptGet cache.cachedPfx (queryChars.take (i + 1))).isSome then
        pure { cache with
          cachedPfx := ptInsert cache.cachedPfx (queryChars.take (i + 1)) ⟨[s], cache.now, 0⟩,
          now := cache.now + 1 }
      else
        none
    else
      pure cache) cache
  let (li, cache) ← cache.visit q
  let row1 ← li.foldlM (fun (a : List ((Nat × Nat) × Nat)) x =>
    match x.2.sets.head? with
    | none => none
    | some s => pure (mapExtend a s.matchings)) []
  let row1 ← (List.range' 2 (b + 1 - 2)).foldlM (fun (r : MatchingSet) t => do
    let delta ← secondDeducing m r queryChars queryChars.length t
    pure (⟨mapExtend r.matchings delta.matchings⟩ : MatchingSet)) (⟨row1⟩ : MatchingSet)
  pure (row1, cache)

/-- Trie::fill_results: insert every stored string in the node's string
range into the result set (HashSet modelled as a list without duplicates). -/
def fillResults (t : Trie) (node : TrieNode) (result : List (List Char)) : List (List Char) :=
  (List.range' node.stringRange.1 (node.stringRange.2 - node.stringRange.1)).foldl
    (fun r i =>
      let s := t.strings.getD i []
      if s ∈ r then r else r ++ [s]) result

/-- Recursive Levenshtein distance with fuel; every recursive call shortens
the combined length by at least one, so fuel equal to the combined length is
never exhausted (the fuel only makes the recursion structural). -/
def edGo : Nat → List Char → List Char → Nat
  | 0, a, b => a.length + b.length
  | _ + 1, [], b => b.length
  | _ + 1, a :: as, [] => (a :: as).length
  | fuel + 1, a :: as, b :: bs =>
    if a = b then edGo fuel as bs
    else 1 + min (edGo fuel as (b :: bs)) (min (edGo fuel (a :: as) bs) (edGo fuel as bs))

/-- Modelled from the spec: the Levenshtein edit distance primitive (module
levenshtein, not under src). -/
def editDistance (a b : List Char) : Nat := edGo (a.length + b.length) a b

/-- Modelled from the spec: prefix_edit_distance (module levenshtein, not
under src): minimum edit distance between the query and any prefix of the
stored string. -/
def pedOf (q s : List Char) : Nat :=
  ((List.range (s.length + 1)).map (fun k => editDistance q (s.take k))).foldl min q.length

/-- Modelled from the spec: the ordering of MeasuredPrefix values (defined at
the crate root, not under src): ascending prefix distance, ties by ascending
string. -/
def measuredLe (a b : List Char × Nat) : Bool :=
  a.2 < b.2 || (a.2 = b.2 && strLe a.1 b.1)

/-- measure_results: measure every candidate with prefix_edit_distance and
sort. -/
def measureResults (result : List (List Char)) (q : List Char) : List (List Char × Nat) :=
  insSort measuredLe (result.map (fun s => (s, pedOf q s)))

/-- MetaAutocompleter::autocomplete: assemble P(|q|, 1), collect the strings
of every matched node, measure and sort them. -/
def autocomplete (m : Meta) (q : List Char) (cache : Cache) : Option (List (List Char × Nat) × Cache) := do
  let (set, cache) ← assemble m q 1 cache
  let strs := set.matchings.foldl (fun acc kv =>
    fillResults m.trie (m.trie.nodes.getD kv.1.2 default) acc) []
  pure (measureResults strs q, cache)

/-- Iterator::nth_back over the ascending key list of the timestamp index:
the element n positions from the back, None when there are at most n keys. -/
def nthBack (l : List Nat) (n : Nat) : Option Nat :=
  if n < l.length then l.get? (l.length - 1 - n) else none

/-- ptrie remove_subtree: drop every cached entry whose key extends the
given prefix (the prefix itself included). -/
def ptRemoveSubtree (pt : List (List Char × PState)) (pfx : List Char) : List (List Char × PState) :=
  pt.filter (fun e => e.1.take pfx.length ≠ pfx)

/-- MetaAutocompleter::prune with the source's fixed capacity 1000: return
unchanged when the timestamp index has fewer than 1000 keys; otherwise take
the key 1000 positions from the back as cutoff (an unwrap panic - None -
when there are exactly 1000 keys), remove the cached subtrees of every entry
older than the cutoff, and keep only timestamps at or after the cutoff. -/
def prune (cache : Cache) : Option Cache :=
  if cache.prioMap.length < 1000 then some cache
  else
    match nthBack (cache.prioMap.map (fun e => e.1)) 1000 with
    | none => none
    | some cutoff =>
      let old := cache.prioMap.filter (fun e => e.1 < cutoff)
      let cp := old.foldl (fun cp e =>
        e.2.foldl (fun cp ix => ptRemoveSubtree cp (cache.slab.getD ix [])) cp) cache.cachedPfx
      some { cache with
        cachedPfx := cp,
        prioMap := cache.prioMap.filter (fun e => cutoff ≤ e.1) }

/-- Written from the claim and spec wording for comparison with the source's
corner step: enumerate descendants at (last_depth, last_character) - rather
than at last_query_prefix_len as the code does - and check at
last_query_prefix_len. -/
def cornerPhaseSpec (m : Meta) (set : MatchingSet) (lastChar : Char) (b : Nat) (mt : Matching) (lastQ : Nat) (acc : MatchingSet) : Option MatchingSet := do
  let ids ← traverseII m mt (lastDepthOf m b mt) lastChar
  pure (ids.foldl (fun a id => checkFn m set b mt a id lastQ) acc)

/-- Written from the claim and spec wording: per_matching with the corner
step taken at last_depth. -/
def perMatchingSpec (m : Meta) (set : MatchingSet) (q : List Char) (queryLen b : Nat) (mt : Matching) (acc : MatchingSet) : Option MatchingSet := do
  let acc ← columnPhase m set q queryLen b mt acc
  let lastQ := lastQplOf b queryLen mt
  let lastChar ← q.get? (wsub lastQ 1)
  let acc ← rowPhase m set lastChar b mt lastQ acc
  cornerPhaseSpec m set lastChar b mt lastQ acc

/-- Written from the claim and spec wording: second_deducing with the corner
step taken at last_depth. -/
def secondDeducingSpec (m : Meta) (set : MatchingSet) (q : List Char) (queryLen b : Nat) : Option MatchingSet :=
  set.matchings.foldlM
    (fun (acc : MatchingSet) kv =>
      if kv.2 ≤ wsub8 (u8cast b) 1 ∧ kv.1.1 ≤ u8cast queryLen then
        perMatchingSpec m set q queryLen b ⟨kv.1.1, kv.1.2, kv.2⟩ acc
      else
        pure acc)
    ⟨[]⟩

/-- Autocompleter over the one-string dataset "a". -/
def metaA : Meta := Meta.new [['a']]

/-- Autocompleter over the one-string dataset "abc". -/
def metaABC : Meta := Meta.new [['a', 'b', 'c']]

/-- Autocompleter over the one-string dataset "aab". -/
def metaAAB : Meta := Meta.new [['a', 'a', 'b']]

/-- Autocompleter over the one-string dataset "ab". -/
def metaAB : Meta := Meta.new [['a', 'b']]

/-- The matching set containing only the root matching (0, 0, 0). -/
def s0 : MatchingSet := ⟨[((0, 0), 0)]⟩

/-- Cache state after autocomplete of "a" against metaABC from the empty
cache. -/
def cacheA : Cache := (autocomplete metaABC ['a'] Cache.empty).elim Cache.empty (fun r => r.2)

/-- Cache state after a further autocomplete of "ab" against metaABC. -/
def cacheAB : Cache := (autocomplete metaABC ['a', 'b'] cacheA).elim Cache.empty (fun r => r.2)

/-- A cache whose timestamp index holds n distinct timestamps, each owning
one slab entry; such states exercise MetaAutocompleter::prune. -/
def mkPrioCache (n : Nat) : Cache :=
  ⟨[], List.replicate n [], (List.range n).map (fun t => (t, [t])), n⟩


theorem find?_upd_other (rest : List ((Nat × Nat) × Nat)) (k k' : Nat × Nat) (v : Nat)
    (h : k' ≠ k) :
    (rest.map (fun e => if e.1 = k then (k, v) else e)).find? (fun e => e.1 = k')
      = rest.find? (fun e => e.1 = k') := by
  induction rest with
  | nil => simp
  | cons e0 rest ih =>
    by_cases h0 : e0.1 = k
    · have hk : ¬ ((k, v).1 = k') := by simpa using Ne.symm h
      have h0' : ¬ e0.1 = k' := h0 ▸ (Ne.symm h)
      simp only [List.map_cons, if_pos h0]
      rw [List.find?_cons_of_neg _ (by simpa using hk), List.find?_cons_of_neg _ (by simpa using h0')]
      exact ih
    · simp only [List.map_cons, if_neg h0]
      by_cases h0' : e0.1 = k'
      · rw [List.find?_cons_of_pos _ (by simpa using h0'), List.find?_cons_of_pos _ (by simpa using h0')]
      · rw [List.find?_cons_of_neg _ (by simpa using h0'), List.find?_cons_of_neg _ (by simpa using h0')]
        exact ih

theorem find?_upd_self (rest : List ((Nat × Nat) × Nat)) (k : Nat × Nat) (v : Nat)
    (h : (rest.find? (fun e => e.1 = k)).isSome = true) :
    (rest.map (fun e => if e.1 = k then (k, v) else e)).find? (fun e => e.1 = k)
      = some (k, v) := by
  induction rest with
  | nil => simp at h
  | cons e0 rest ih =>
    by_cases h0 : e0.1 = k
    · simp only [List.map_cons, if_pos h0]
      rw [List.find?_cons_of_pos _ (by simp)]
    · simp only [List.map_cons, if_neg h0]
      rw [List.find?_cons_of_neg _ (by simpa using h0)]
      rw [List.find?_cons_of_neg _ (by simpa using h0)] at h
      exact ih h

/-- p is a (not necessarily proper) prefix of s. -/
def isPre (p s : List Char) : Bool := s.take p.length = p

/-- The prefix represented by node j of a node vector over the stored
strings: the first depth(j) characters of the first stored string in node
j's string range (spec section 3: the strings in the range are exactly those
having the node's prefix as a prefix). -/
def pfxAt (strings : List (List Char)) (ns : List TrieNode) (j : Nat) : List Char :=
  (strings.getD (ns.getD j default).stringRange.1 []).take (ns.getD j default).depth

/-- The prefix represented by node j of a trie. -/
def nodePfx (t : Trie) (j : Nat) : List Char := pfxAt t.strings t.nodes j

/-- Total number of characters remaining at or after position ss in the
strings with indices in [cs, stop); used to account for construction fuel. -/
def remSum (strings : List (List Char)) (cs stop ss : Nat) : Nat :=
  ((List.range' cs (stop - cs)).map (fun k => (strings.getD k []).length - ss)).sum

/-- Invariant of the contiguous node block [lo, hi) built by one init_nodes
call with prefix p: every node's represented prefix extends p (properly,
except for the block root lo, whose prefix is p and whose descendant range
ends at hi), prefix lengths agree with depths, descendant ranges stay inside
the block, and membership of j in the descendant range of i is equivalent to
the prefix of i being a proper prefix of the prefix of j. -/
def BlockInv (strings : List (List Char)) (ns : List TrieNode) (lo hi : Nat) (p : List Char) : Prop :=
  (∀ j, lo ≤ j → j < hi →
      isPre p (pfxAt strings ns j) = true
      ∧ (pfxAt strings ns j).length = (ns.getD j default).depth
      ∧ (lo < j → p.length < (ns.getD j default).depth)
      ∧ (ns.getD j default).descendantRange.2 ≤ hi)
  ∧ (lo < hi → pfxAt strings ns lo = p ∧ (ns.getD lo default).descendantRange.2 = hi)
  ∧ (∀ i j, lo ≤ i → i < hi → lo ≤ j → j < hi →
      ((i < j ∧ j < (ns.getD i default).descendantRange.2)
        ↔ (isPre (pfxAt strings ns i) (pfxAt strings ns j) = true
           ∧ pfxAt strings ns i ≠ pfxAt strings ns j)))

/-- Invariant of the node region [lo, hi) built by iterations of the
init_nodes while loop with prefix p: like BlockInv but every node's prefix
properly extends p (the region is a forest of child blocks). -/
def ForestInv (strings : List (List Char)) (ns : List TrieNode) (lo hi : Nat) (p : List Char) : Prop :=
  (∀ j, lo ≤ j → j < hi →
      isPre p (pfxAt strings ns j) = true
      ∧ (pfxAt strings ns j).length = (ns.getD j default).depth
      ∧ p.length < (ns.getD j default).depth
      ∧ (ns.getD j default).descendantRange.2 ≤ hi)
  ∧ (∀ i j, lo ≤ i → i < hi → lo ≤ j → j < hi →
      ((i < j ∧ j < (ns.getD i default).descendantRange.2)
        ↔ (isPre (pfxAt strings ns i) (pfxAt strings ns j) = true
           ∧ pfxAt strings ns i ≠ pfxAt strings ns j)))

theorem mapGet_insert_self (m : List ((Nat × Nat) × Nat)) (k : Nat × Nat) (v : Nat) :
    mapGet (mapInsert m k v) k = some v := by
  by_cases h : ((m.find? (fun e => e.1 = k)).isSome : Bool)
  · rw [mapGet, mapInsert, if_pos h, find?_upd_self m k v h]
    rfl
  · rw [mapGet, mapInsert, if_neg h, List.find?_append]
    have hn : m.find? (fun e => e.1 = k) = none := by
      cases hc : m.find? (fun e => e.1 = k) with
      | none => rfl
      | some e => rw [hc] at h; simp at h
    rw [hn]
    simp

theorem mapGet_insert_ne (m : List ((Nat × Nat) × Nat)) (k k' : Nat × Nat) (v : Nat)
    (h : k' ≠ k) : mapGet (mapInsert m k v) k' = mapGet m k' := by
  by_cases hs : ((m.find? (fun e => e.1 = k)).isSome : Bool)
  · rw [mapGet, mapInsert, if_pos hs, find?_upd_other m k k' v h]
    rfl
  · rw [mapGet, mapInsert, if_neg hs, List.find?_append]
    have hk : ¬ ((k, v).1 = k') := by simpa using Ne.symm h
    rw [mapGet]
    cases hc : m.find? (fun e => e.1 = k') with
    | none => simp [hc, List.find?, hk]
    | some e => simp [hc]

theorem mapGet_insert_cases (m : List ((Nat × Nat) × Nat)) (k k' : Nat × Nat) (v w : Nat)
    (h : mapGet (mapInsert m k v) k' = some w) :
    (k' = k ∧ w = v) ∨ mapGet m k' = some w := by
  by_cases hk : k' = k
  · subst hk
    rw [mapGet_insert_self] at h
    exact Or.inl ⟨rfl, (Option.some_inj.mp h).symm⟩
  · rw [mapGet_insert_ne m k k' v hk] at h
    exact Or.inr h

theorem foldlM_opt_inv {α β : Type} (f : β → α → Option β) (P : β → Prop)
    (hf : ∀ b a b', f b a = some b' → P b → P b') :
    ∀ (l : List α) (b r : β), List.foldlM f b l = some r → P b → P r := by
  intro l
  induction l with
  | nil =>
    intro b r h hb
    simp only [List.foldlM_nil] at h
    cases h
    exact hb
  | cons x xs ih =>
    intro b r h hb
    simp only [List.foldlM_cons] at h
    rcases Option.bind_eq_some.mp h with ⟨b', hb', hrest⟩
    exact ih b' r hrest (hf b x b' hb' hb)

theorem checkFn_cases (m : Meta) (set : MatchingSet) (b : Nat) (mt : Matching)
    (acc : MatchingSet) (id qpl : Nat) (k : Nat × Nat) (w : Nat)
    (h : mapGet (checkFn m set b mt acc id qpl).matchings k = some w) :
    mapGet acc.matchings k = some w ∨
      (k = (u8cast qpl, id) ∧ w = u8cast b ∧ set.contains (u8cast qpl) id = false) := by
  rw [checkFn] at h
  by_cases hc : (¬ set.contains (u8cast qpl) id = true
      ∧ deducedED mt (wsub qpl 1) (wsub (m.trie.nodes.getD id default).depth 1) m.trie.nodes = b)
  · rw [if_pos hc] at h
    rcases mapGet_insert_cases _ _ _ _ _ h with ⟨hk, hw⟩ | hold
    · exact Or.inr ⟨hk, hw, by simpa using hc.1⟩
    · exact Or.inl hold
  · rw [if_neg hc] at h
    exact Or.inl h

theorem checkFold_cases (m : Meta) (set : MatchingSet) (b : Nat) (mt : Matching)
    (qpl : Nat) (ids : List Nat) :
    ∀ (acc : MatchingSet) (k : Nat × Nat) (w : Nat),
      mapGet ((ids.foldl (fun a id => checkFn m set b mt a id qpl)) acc).matchings k = some w →
      mapGet acc.matchings k = some w ∨
        (∃ id, id ∈ ids ∧ k = (u8cast qpl, id) ∧ w = u8cast b ∧ set.contains (u8cast qpl) id = false) := by
  induction ids with
  | nil =>
    intro acc k w h
    exact Or.inl h
  | cons id ids ih =>
    intro acc k w h
    simp only [List.foldl_cons] at h
    rcases ih _ _ _ h with hacc | ⟨id', hmem, hrest⟩
    · rcases checkFn_cases m set b mt acc id qpl k w hacc with hold | ⟨hk, hw, hcont⟩
      · exact Or.inl hold
      · exact Or.inr ⟨id, List.mem_cons_self id ids, hk, hw, hcont⟩
    · exact Or.inr ⟨id', List.mem_cons_of_mem id hmem, hrest⟩

theorem columnPhase_pres (m : Meta) (set : MatchingSet) (q : List Char) (queryLen b : Nat)
    (mt : Matching) (acc res : MatchingSet)
    (h : columnPhase m set q queryLen b mt acc = some res)
    (P : ∀ k w, mapGet acc.matchings k = some w → w = u8cast b ∧ set.contains k.1 k.2 = false) :
    ∀ k w, mapGet res.matchings k = some w → w = u8cast b ∧ set.contains k.1 k.2 = false := by
  rw [columnPhase] at h
  refine foldlM_opt_inv _
    (fun a => ∀ k w, mapGet a.matchings k = some w → w = u8cast b ∧ set.contains k.1 k.2 = false)
    ?_ _ _ _ h P
  intro a qpl a' ha hP k w hw
  rcases Option.bind_eq_some.mp ha with ⟨ch, hch, hbody⟩
  by_cases hcond : natAbsDiff qpl (lastDepthOf m b mt) ≤ b
  · rw [if_pos hcond] at hbody
    rcases Option.bind_eq_some.mp hbody with ⟨ids, hids, hpure⟩
    cases hpure
    rcases checkFold_cases m set b mt qpl ids a k w hw with hold | ⟨id, _, hk, hwv, hcont⟩
    · exact hP k w hold
    · subst hk
      exact ⟨hwv, hcont⟩
  · rw [if_neg hcond] at hbody
    cases hbody
    exact hP k w hw

theorem rowPhase_pres (m : Meta) (set : MatchingSet) (lastChar : Char) (b : Nat)
    (mt : Matching) (lastQ : Nat) (acc res : MatchingSet)
    (h : rowPhase m set lastChar b mt lastQ acc = some res)
    (P : ∀ k w, mapGet acc.matchings k = some w → w = u8cast b ∧ set.contains k.1 k.2 = false) :
    ∀ k w, mapGet res.matchings k = some w → w = u8cast b ∧ set.contains k.1 k.2 = false := by
  rw [rowPhase] at h
  refine foldlM_opt_inv _
    (fun a => ∀ k w, mapGet a.matchings k = some w → w = u8cast b ∧ set.contains k.1 k.2 = false)
    ?_ _ _ _ h P
  intro a depth a' ha hP k w hw
  by_cases hcond : natAbsDiff lastQ depth ≤ b
  · rw [if_pos hcond] at ha
    rcases Option.bind_eq_some.mp ha with ⟨ids, hids, hpure⟩
    cases hpure
    rcases checkFold_cases m set b mt lastQ ids a k w hw with hold | ⟨id, _, hk, hwv, hcont⟩
    · exact hP k w hold
    · subst hk
      exact ⟨hwv, hcont⟩
  · rw [if_neg hcond] at ha
    cases ha
    exact hP k w hw

theorem cornerPhase_pres (m : Meta) (set : MatchingSet) (lastChar : Char) (b : Nat)
    (mt : Matching) (lastQ : Nat) (acc res : MatchingSet)
    (h : cornerPhase m set lastChar b mt lastQ acc = some res)
    (P : ∀ k w, mapGet acc.matchings k = some w → w = u8cast b ∧ set.contains k.1 k.2 = false) :
    ∀ k w, mapGet res.matchings k = some w → w = u8cast b ∧ set.contains k.1 k.2 = false := by
  rw [cornerPhase] at h
  rcases Option.bind_eq_some.mp h with ⟨ids, hids, hpure⟩
  cases hpure
  intro k w hw
  rcases checkFold_cases m set b mt lastQ ids acc k w hw with hold | ⟨id, _, hk, hwv, hcont⟩
  · exact P k w hold
  · subst hk
    exact ⟨hwv, hcont⟩

theorem perMatching_pres (m : Meta) (set : MatchingSet) (q : List Char) (queryLen b : Nat)
    (mt : Matching) (acc res : MatchingSet)
    (h : perMatching m set q queryLen b mt acc = some res)
    (P : ∀ k w, mapGet acc.matchings k = some w → w = u8cast b ∧ set.contains k.1 k.2 = false) :
    ∀ k w, mapGet res.matchings k = some w → w = u8cast b ∧ set.contains k.1 k.2 = false := by
  rw [perMatching] at h
  rcases Option.bind_eq_some.mp h with ⟨a1, h1, h⟩
  rcases Option.bind_eq_some.mp h with ⟨ch, hch, h⟩
  rcases Option.bind_eq_some.mp h with ⟨a2, h2, h3⟩
  have P1 := columnPhase_pres m set q queryLen b mt acc a1 h1 P
  have P2 := rowPhase_pres m set ch b mt (lastQplOf b queryLen mt) a1 a2 h2 P1
  exact cornerPhase_pres m set ch b mt (lastQplOf b queryLen mt) a2 res h3 P2

/-- C5, general form before specializing the u8 cast: every entry of the
delta returned by second_deducing has edit distance u8cast b and a key on
which the input set has no entry. -/
theorem secondDeducing_delta (m : Meta) (set : MatchingSet) (q : List Char) (queryLen b : Nat)
    (delta : MatchingSet) (h : secondDeducing m set q queryLen b = some delta) :
    ∀ k w, mapGet delta.matchings k = some w → w = u8cast b ∧ set.contains k.1 k.2 = false := by
  rw [secondDeducing] at h
  refine foldlM_opt_inv _
    (fun a => ∀ k w, mapGet a.matchings k = some w → w = u8cast b ∧ set.contains k.1 k.2 = false)
    ?_ _ _ _ h ?_
  · intro a kv a' ha hP
    by_cases hcond : kv.2 ≤ wsub8 (u8cast b) 1 ∧ kv.1.1 ≤ u8cast queryLen
    · rw [if_pos hcond] at ha
      exact perMatching_pres m set q queryLen b ⟨kv.1.1, kv.1.2, kv.2⟩ a a' ha hP
    · rw [if_neg hcond] at ha
      cases ha
      exact hP
  · intro k w hw
    simp [mapGet] at hw

/-- C1: the claim that for small datasets and budgets the set of strings
returned by autocomplete(q) equals the set of stored strings with
prefix-edit-distance at most b fails on the code: with the one-string
dataset a and query a (budget fixed at 1 by autocomplete), the code returns
the empty result list although the stored string a has prefix edit distance
0; the underflowing usize subtraction query_len - 1 - b in first_deducing
(which panics in debug builds and wraps here as in release builds) empties
the only deduction step. -/
theorem c1_autocomplete_misses_within_budget :
    (autocomplete metaA ['a'] Cache.empty).map (fun r => r.1) = some []
    ∧ metaA.trie.strings.filter (fun s => pedOf ['a'] s ≤ 1) = [['a']] :=
  ⟨by decide, by decide⟩

/-- C2 counterexample: inserting the matching (1, 0, 5) into a matching set
whose entry at (1, 0) is 0 leaves the entry at 5, not at min(0, 5) = 0:
MatchingSet::insert overwrites instead of keeping the smaller edit
distance. -/
theorem c2_insert_min_cex :
    mapGet ((MatchingSet.insert ⟨[((1, 0), 0)]⟩ ⟨1, 0, 5⟩).matchings) (1, 0) ≠ some (min 0 5) := by
  decide

/-- C2 amended: inserting a matching sets the entry at its key
(query_prefix_len, node) to its edit distance, regardless of any previous
entry, and leaves every other key unchanged. -/
theorem c2_insert_overwrites (s : MatchingSet) (mt : Matching) :
    mapGet ((s.insert mt).matchings) (mt.queryPrefixLen, mt.node) = some mt.editDistance
    ∧ ∀ k, k ≠ (mt.queryPrefixLen, mt.node) →
        mapGet ((s.insert mt).matchings) k = mapGet s.matchings k :=
  ⟨mapGet_insert_self _ _ _, fun _ hk => mapGet_insert_ne _ _ _ _ hk⟩

/-- Witness for c2_insert_overwrites at the matching (1, 0, 5) over the
singleton set, checked at the key itself and at the distinct key (2, 2). -/
theorem c2_insert_overwrites_witness :
    mapGet ((MatchingSet.insert ⟨[((1, 0), 0)]⟩ ⟨1, 0, 5⟩).matchings) (1, 0) = some 5
    ∧ mapGet ((MatchingSet.insert ⟨[((1, 0), 0)]⟩ ⟨1, 0, 5⟩).matchings) (2, 2)
        = mapGet (⟨[((1, 0), 0)]⟩ : MatchingSet).matchings (2, 2) := by
  have h := c2_insert_overwrites ⟨[((1, 0), 0)]⟩ ⟨1, 0, 5⟩
  exact ⟨h.1, h.2 (2, 2) (by decide)⟩

/-- C3: the claim that autocomplete never fails on a built index fails on the
code: on the empty query, visit calls li.last().unwrap() on an empty vector
and panics (modelled as None), and on a fresh cache the two-character query
ab panics as well (the second visit resets the just-computed cache entry and
the row fold then indexes sets[0] of an empty vector). -/
theorem c3_autocomplete_panics :
    autocomplete metaA [] Cache.empty = none
    ∧ autocomplete metaA ['a', 'b'] Cache.empty = none :=
  ⟨by decide, by decide⟩

/-- C4 counterexample: for the dataset aab, query ab, budget 2 and the root
matching (0, 0, 0), last_depth is 3 and last_query_prefix_len is 2, and both
the corner step and the whole second deduction differ from the claimed
behaviour (enumerating the descendants at last_depth): the code enumerates
at depth last_query_prefix_len instead. -/
theorem c4_corner_depth_cex :
    lastDepthOf metaAAB 2 ⟨0, 0, 0⟩ = 3
    ∧ lastQplOf 2 2 ⟨0, 0, 0⟩ = 2
    ∧ cornerPhase metaAAB s0 'b' 2 ⟨0, 0, 0⟩ 2 ⟨[]⟩
        ≠ cornerPhaseSpec metaAAB s0 'b' 2 ⟨0, 0, 0⟩ 2 ⟨[]⟩
    ∧ secondDeducing metaAAB s0 ['a', 'b'] 2 2
        ≠ secondDeducingSpec metaAAB s0 ['a', 'b'] 2 2 :=
  ⟨by decide, by decide, by decide, by decide⟩

/-- C4 amended: in the second deduction the final corner step enumerates the
inverted-index descendants of the input matching's node at depth
last_query_prefix_len = min(query_prefix_len + b - edit_distance + 1,
query_len) - not at last_depth - with character query[last_query_prefix_len
- 1], and calls the check for query prefix length last_query_prefix_len:
every run of per_matching ends by folding the check at
last_query_prefix_len over exactly that enumeration. -/
theorem c4_corner_uses_last_query_prefix_len (m : Meta) (set : MatchingSet) (q : List Char)
    (queryLen b : Nat) (mt : Matching) (acc res : MatchingSet)
    (h : perMatching m set q queryLen b mt acc = some res) :
    ∃ lastChar midAcc ids,
      q.get? (wsub (lastQplOf b queryLen mt) 1) = some lastChar
      ∧ traverseII m mt (lastQplOf b queryLen mt) lastChar = some ids
      ∧ res = ids.foldl (fun a id => checkFn m set b mt a id (lastQplOf b queryLen mt)) midAcc := by
  rw [perMatching] at h
  rcases Option.bind_eq_some.mp h with ⟨a1, h1, h⟩
  rcases Option.bind_eq_some.mp h with ⟨ch, hch, h⟩
  rcases Option.bind_eq_some.mp h with ⟨a2, h2, h3⟩
  rw [cornerPhase] at h3
  rcases Option.bind_eq_some.mp h3 with ⟨ids, hids, hpure⟩
  cases hpure
  exact ⟨ch, a2, ids, hch, hids, rfl⟩

/-- Witness for c4_corner_uses_last_query_prefix_len at the dataset ab,
query ab, budget 1 and the root matching. -/
theorem c4_corner_uses_last_query_prefix_len_witness :
    ∃ lastChar midAcc ids,
      (['a', 'b'].get? (wsub (lastQplOf 1 2 ⟨0, 0, 0⟩) 1) = some lastChar)
      ∧ traverseII metaAB ⟨0, 0, 0⟩ (lastQplOf 1 2 ⟨0, 0, 0⟩) lastChar = some ids
      ∧ (⟨[((2, 2), 1)]⟩ : MatchingSet)
          = ids.foldl (fun a id => checkFn metaAB s0 1 ⟨0, 0, 0⟩ a id (lastQplOf 1 2 ⟨0, 0, 0⟩)) midAcc :=
  c4_corner_uses_last_query_prefix_len metaAB s0 ['a', 'b'] 2 1 ⟨0, 0, 0⟩ ⟨[]⟩ ⟨[((2, 2), 1)]⟩
    (by decide)

/-- C5 counterexample: the claim that every matching emitted by
second_deducing has edit_distance exactly b fails at budget b = 256: on the
dataset ab, query ab, and the input set holding the root matching at
edit distance 255, the run succeeds and emits the matching at key (2, 2)
with edit_distance 0, not 256 - the source tests deduced == b in usize but
stores b as u8, which truncates. -/
theorem c5_second_deducing_cex :
    secondDeducing metaAB ⟨[((0, 0), 255)]⟩ ['a', 'b'] 2 256 = some ⟨[((2, 2), 0)]⟩
    ∧ mapGet (⟨[((2, 2), 0)]⟩ : MatchingSet).matchings (2, 2) ≠ some 256 :=
  ⟨by decide, by decide⟩

/-- C5 amended: for every input set S, query, query length and budget b,
every matching emitted by second_deducing has edit_distance b truncated to
u8 (b mod 256; equal to b exactly when b fits the source's u8 edit-distance
type) and its key (query_prefix_len, node) is absent from S. -/
theorem c5_second_deducing_truncated (m : Meta) (set : MatchingSet) (q : List Char)
    (queryLen b : Nat) (delta : MatchingSet)
    (h : secondDeducing m set q queryLen b = some delta) :
    ∀ k w, mapGet delta.matchings k = some w → w = u8cast b ∧ set.contains k.1 k.2 = false :=
  secondDeducing_delta m set q queryLen b delta h

/-- Witness for c5_second_deducing_truncated: dataset ab, query ab, budget
256, input set holding the root matching at edit distance 255; the delta is
the single matching ((2, 2), 0) with 0 = 256 mod 256, and (2, 2) is absent
from the input set. -/
theorem c5_second_deducing_truncated_witness :
    (0 : Nat) = u8cast 256 ∧ (⟨[((0, 0), 255)]⟩ : MatchingSet).contains 2 2 = false :=
  c5_second_deducing_truncated metaAB ⟨[((0, 0), 255)]⟩ ['a', 'b'] 2 256 ⟨[((2, 2), 0)]⟩
    (by decide) (2, 2) 0 (by decide)

/-- C7: the claim that autocomplete(q) returns the same results whether or
not autocomplete(p) was previously called for a prefix p of q fails on the
code: against the dataset abc, after autocomplete of a has populated the
cache, autocomplete of abc panics (the second visit resets the abc entry and
sets[0] is indexed on an empty vector), while running autocomplete of ab
first makes the same call succeed and return abc at distance 0. -/
theorem c7_cache_changes_result :
    (autocomplete metaABC ['a'] Cache.empty).isSome = true
    ∧ (autocomplete metaABC ['a', 'b'] cacheA).isSome = true
    ∧ autocomplete metaABC ['a', 'b', 'c'] cacheA = none
    ∧ (autocomplete metaABC ['a', 'b', 'c'] cacheAB).map (fun r => r.1)
        = some [(['a', 'b', 'c'], 0)] :=
  ⟨by decide, by decide, by decide, by decide⟩

set_option maxRecDepth 400000 in
/-- C8: the claim that prune always evicts the cache down to the capacity of
1000 entries fails on the code: with exactly 1000 timestamps the guard
passes but keys().nth_back(1000) is None and the unwrap panics, and with
1500 timestamps the split keeps 1001 timestamp groups, one more than the
capacity. -/
theorem c8_prune_panics :
    prune (mkPrioCache 1000) = none
    ∧ (prune (mkPrioCache 1500)).map (fun c => c.prioMap.length) = some 1001 :=
  ⟨by decide, by decide⟩

theorem initGo_pres (strings : List (List Char)) :
    ∀ (fuel : Nat) (cmd : BuildCmd) (ns : List TrieNode),
      ns.length ≤ (initGo strings fuel cmd ns).length
      ∧ ∀ j, j < ns.length → (initGo strings fuel cmd ns)[j]? = ns[j]? := by
  intro fuel
  induction fuel with
  | zero => intro cmd ns; simp [initGo]
  | succ fuel ih =>
    intro cmd ns
    cases cmd with
    | node depth pfx lastChar suffixStart start stop =>
      simp only [initGo]
      obtain ⟨hlen, hget⟩ := ih (.loop depth pfx suffixStart start start stop)
        (ns ++ [(⟨lastChar, (0, 0), (start, stop), depth⟩ : TrieNode)])
      constructor
      · rw [List.length_set]
        calc ns.length ≤ (ns ++ [(⟨lastChar, (0, 0), (start, stop), depth⟩ : TrieNode)]).length := by
              simp
          _ ≤ _ := hlen
      · intro j hj
        rw [List.getElem?_set_ne (by omega)]
        rw [hget j (by simp; omega)]
        exact List.getElem?_append_left hj
    | loop depth pfx suffixStart start childStart stop =>
      simp only [initGo]
      by_cases hcs : childStart = stop
      · simp [hcs]
      · rw [if_neg hcs]
        cases hh : ((strings.getD childStart []).drop suffixStart).head? with
        | none =>
          exact ih (.loop depth pfx suffixStart start (childStart + 1) stop) ns
        | some nextChar =>
          obtain ⟨hlen1, hget1⟩ := ih (.node (depth + 1) (pfx ++ [nextChar]) nextChar
            (suffixStart + 1) childStart
            (match charSucc nextChar with
              | some succ =>
                start + ((strings.drop start).take (stop - start)).countP
                  (fun s => strLt s (pfx ++ [succ]))
              | none => stop)) ns
          obtain ⟨hlen2, hget2⟩ := ih (.loop depth pfx suffixStart start
            (match charSucc nextChar with
              | some succ =>
                start + ((strings.drop start).take (stop - start)).countP
                  (fun s => strLt s (pfx ++ [succ]))
              | none => stop) stop)
            (initGo strings fuel (.node (depth + 1) (pfx ++ [nextChar]) nextChar
              (suffixStart + 1) childStart
              (match charSucc nextChar with
                | some succ =>
                  start + ((strings.drop start).take (stop - start)).countP
                    (fun s => strLt s (pfx ++ [succ]))
                | none => stop)) ns)
          constructor
          · exact le_trans hlen1 hlen2
          · intro j hj
            rw [hget2 j (lt_of_lt_of_le hj hlen1), hget1 j hj]


theorem dr_comp {ns built result : List TrieNode}
    (hget2 : ∀ j, j < built.length → result[j]? = built[j]?)
    (hlen2 : built.length ≤ result.length)
    (h1 : ∀ j, ns.length ≤ j → ∀ n, built[j]? = some n →
      n.descendantRange.1 = j + 1 ∧ n.descendantRange.2 ≤ built.length)
    (h2 : ∀ j, built.length ≤ j → ∀ n, result[j]? = some n →
      n.descendantRange.1 = j + 1 ∧ n.descendantRange.2 ≤ result.length) :
    ∀ j, ns.length ≤ j → ∀ n, result[j]? = some n →
      n.descendantRange.1 = j + 1 ∧ n.descendantRange.2 ≤ result.length := by
  intro j hj n hn
  by_cases hjb : j < built.length
  · rw [hget2 j hjb] at hn
    obtain ⟨ha, hb⟩ := h1 j hj n hn
    exact ⟨ha, le_trans hb hlen2⟩
  · exact h2 j (by omega) n hn

theorem initGo_dr (strings : List (List Char)) :
    ∀ (fuel : Nat) (cmd : BuildCmd) (ns : List TrieNode),
      ∀ j, ns.length ≤ j →
        ∀ n, (initGo strings fuel cmd ns)[j]? = some n →
          n.descendantRange.1 = j + 1
          ∧ n.descendantRange.2 ≤ (initGo strings fuel cmd ns).length := by
  intro fuel
  induction fuel with
  | zero =>
    intro cmd ns j hj n hn
    simp only [initGo] at hn
    rw [List.getElem?_eq_none (by simpa using hj)] at hn
    cases hn
  | succ fuel ih =>
    intro cmd ns j hj n hn
    cases cmd with
    | node depth pfx lastChar suffixStart start stop =>
      simp only [initGo] at hn ⊢
      obtain ⟨hlen, hget⟩ := initGo_pres strings fuel
        (.loop depth pfx suffixStart start start stop)
        (ns ++ [(⟨lastChar, (0, 0), (start, stop), depth⟩ : TrieNode)])
      simp only [List.length_append, List.length_singleton] at hlen
      by_cases hje : j = ns.length
      · subst hje
        rw [List.getElem?_set_self (by omega)] at hn
        cases hn
        refine ⟨rfl, ?_⟩
        rw [List.length_set]
      · rw [List.getElem?_set_ne (by omega)] at hn
        obtain ⟨h1, h2⟩ := ih (.loop depth pfx suffixStart start start stop)
          (ns ++ [(⟨lastChar, (0, 0), (start, stop), depth⟩ : TrieNode)]) j
          (by simp; omega) n hn
        refine ⟨h1, ?_⟩
        rw [List.length_set]
        exact h2
    | loop depth pfx suffixStart start childStart stop =>
      simp only [initGo] at hn ⊢
      by_cases hcs : childStart = stop
      · rw [if_pos hcs] at hn
        rw [List.getElem?_eq_none (by simpa using hj)] at hn
        cases hn
      · rw [if_neg hcs] at hn ⊢
        cases hh : ((strings.getD childStart []).drop suffixStart).head? with
        | none =>
          rw [hh] at hn
          exact ih (.loop depth pfx suffixStart start (childStart + 1) stop) ns j hj n hn
        | some nextChar =>
          rw [hh] at hn
          exact dr_comp
            (initGo_pres strings fuel (.loop depth pfx suffixStart start _ stop) _).2
            (initGo_pres strings fuel (.loop depth pfx suffixStart start _ stop) _).1
            (ih (.node (depth + 1) (pfx ++ [nextChar]) nextChar (suffixStart + 1) childStart _) ns)
            (ih (.loop depth pfx suffixStart start _ stop) _)
            j hj n hn

theorem trieNew_dr (source : List (List Char)) :
    ∀ j n, (Trie.new source).nodes[j]? = some n →
      n.descendantRange.1 = j + 1
      ∧ n.descendantRange.2 ≤ (Trie.new source).nodes.length := by
  intro j n hn
  exact initGo_dr (dedupAdj (insSort strLe source)) (buildFuel (dedupAdj (insSort strLe source)))
    (.node 0 [] (Char.ofNat 0) 0 0 (dedupAdj (insSort strLe source)).length) [] j
    (Nat.zero_le j) n hn

/-- C9: for every input collection, the trie produced by Trie::new contains
at least one node; its first node is the root, with depth 0, the sentinel
character U+0000, a string range covering all stored (sorted, deduplicated)
strings, and a descendant range spanning every other node, so root() never
panics on a trie from the public constructor. -/
theorem c9_root_always_built (source : List (List Char)) :
    ∃ r, (Trie.new source).root = some r
      ∧ r.depth = 0
      ∧ r.character = Char.ofNat 0
      ∧ r.stringRange = (0, (Trie.new source).strings.length)
      ∧ r.descendantRange = (1, (Trie.new source).nodes.length) := by
  have hpres := initGo_pres (dedupAdj (insSort strLe source))
    (buildFuel (dedupAdj (insSort strLe source)) - 1)
    (.loop 0 [] 0 0 0 (dedupAdj (insSort strLe source)).length)
    [(⟨Char.ofNat 0, (0, 0), (0, (dedupAdj (insSort strLe source)).length), 0⟩ : TrieNode)]
  obtain ⟨hlen, hget⟩ := hpres
  simp only [List.length_singleton] at hlen
  have hfuel : buildFuel (dedupAdj (insSort strLe source))
      = (buildFuel (dedupAdj (insSort strLe source)) - 1) + 1 := by
    rw [buildFuel]; omega
  have hnodes : (Trie.new source).nodes
      = (initGo (dedupAdj (insSort strLe source))
          (buildFuel (dedupAdj (insSort strLe source)) - 1)
          (.loop 0 [] 0 0 0 (dedupAdj (insSort strLe source)).length)
          [(⟨Char.ofNat 0, (0, 0), (0, (dedupAdj (insSort strLe source)).length), 0⟩ : TrieNode)]).set 0
        { (initGo (dedupAdj (insSort strLe source))
            (buildFuel (dedupAdj (insSort strLe source)) - 1)
            (.loop 0 [] 0 0 0 (dedupAdj (insSort strLe source)).length)
            [(⟨Char.ofNat 0, (0, 0), (0, (dedupAdj (insSort strLe source)).length), 0⟩ : TrieNode)]).getD 0 default
          with descendantRange :=
            (1, (initGo (dedupAdj (insSort strLe source))
              (buildFuel (dedupAdj (insSort strLe source)) - 1)
              (.loop 0 [] 0 0 0 (dedupAdj (insSort strLe source)).length)
              [(⟨Char.ofNat 0, (0, 0), (0, (dedupAdj (insSort strLe source)).length), 0⟩ : TrieNode)]).length) } := by
    show (initNodes _ (buildFuel (dedupAdj (insSort strLe source))) _ _ _ _ _ _ _) = _
    rw [initNodes, hfuel]
    simp only [initGo, List.length_nil, List.nil_append]
  have hget0 : (initGo (dedupAdj (insSort strLe source))
      (buildFuel (dedupAdj (insSort strLe source)) - 1)
      (.loop 0 [] 0 0 0 (dedupAdj (insSort strLe source)).length)
      [(⟨Char.ofNat 0, (0, 0), (0, (dedupAdj (insSort strLe source)).length), 0⟩ : TrieNode)])[0]?
      = some (⟨Char.ofNat 0, (0, 0), (0, (dedupAdj (insSort strLe source)).length), 0⟩ : TrieNode) := by
    rw [hget 0 (by simp)]
    rfl
  have hgetD : (initGo (dedupAdj (insSort strLe source))
      (buildFuel (dedupAdj (insSort strLe source)) - 1)
      (.loop 0 [] 0 0 0 (dedupAdj (insSort strLe source)).length)
      [(⟨Char.ofNat 0, (0, 0), (0, (dedupAdj (insSort strLe source)).length), 0⟩ : TrieNode)]).getD 0 default
      = (⟨Char.ofNat 0, (0, 0), (0, (dedupAdj (insSort strLe source)).length), 0⟩ : TrieNode) := by
    rw [List.getD_eq_getElem?_getD, hget0]
    rfl
  have hL : (Trie.new source).nodes.length
      = (initGo (dedupAdj (insSort strLe source))
          (buildFuel (dedupAdj (insSort strLe source)) - 1)
          (.loop 0 [] 0 0 0 (dedupAdj (insSort strLe source)).length)
          [(⟨Char.ofNat 0, (0, 0), (0, (dedupAdj (insSort strLe source)).length), 0⟩ : TrieNode)]).length := by
    rw [hnodes, List.length_set]
  have hroot : (Trie.new source).root
      = some (⟨Char.ofNat 0,
          (1, (initGo (dedupAdj (insSort strLe source))
            (buildFuel (dedupAdj (insSort strLe source)) - 1)
            (.loop 0 [] 0 0 0 (dedupAdj (insSort strLe source)).length)
            [(⟨Char.ofNat 0, (0, 0), (0, (dedupAdj (insSort strLe source)).length), 0⟩ : TrieNode)]).length),
          (0, (dedupAdj (insSort strLe source)).length), 0⟩ : TrieNode) := by
    show (Trie.new source).nodes.head? = _
    rw [List.head?_eq_getElem?, hnodes, List.getElem?_set_self (by omega)]
    rw [hgetD]
  refine ⟨_, hroot, rfl, rfl, rfl, ?_⟩
  rw [hL]

theorem mem_insertSorted {α : Type} (le : α → α → Bool) (x : α) :
    ∀ (l : List α) (z : α), z ∈ insertSorted le x l ↔ z = x ∨ z ∈ l := by
  intro l
  induction l with
  | nil => intro z; simp [insertSorted]
  | cons y ys ih =>
    intro z
    rw [insertSorted]
    by_cases hle : le x y
    · simp [hle]
    · simp only [if_neg hle, List.mem_cons, ih z]
      tauto

theorem pairwise_insertSorted {α : Type} (le : α → α → Bool)
    (htot : ∀ a b, le a b = true ∨ le b a = true)
    (htrans : ∀ a b c, le a b = true → le b c = true → le a c = true) (x : α) :
    ∀ (l : List α), List.Pairwise (fun a b => le a b = true) l →
      List.Pairwise (fun a b => le a b = true) (insertSorted le x l) := by
  intro l
  induction l with
  | nil => intro _; simp [insertSorted]
  | cons y ys ih =>
    intro hp
    rw [insertSorted]
    rcases List.pairwise_cons.mp hp with ⟨hy, hys⟩
    by_cases hle : le x y
    · rw [if_pos hle]
      refine List.pairwise_cons.mpr ⟨?_, hp⟩
      intro z hz
      rcases List.mem_cons.mp hz with hz | hz
      · exact hz ▸ hle
      · exact htrans x y z hle (hy z hz)
    · rw [if_neg hle]
      refine List.pairwise_cons.mpr ⟨?_, ih hys⟩
      intro z hz
      rcases (mem_insertSorted le x ys z).mp hz with hz | hz
      · rw [hz]
        rcases htot x y with h | h
        · exact absurd h hle
        · exact h
      · exact hy z hz

theorem mem_insSort {α : Type} (le : α → α → Bool) :
    ∀ (l : List α) (z : α), z ∈ insSort le l ↔ z ∈ l := by
  intro l
  induction l with
  | nil => intro z; simp [insSort]
  | cons x xs ih =>
    intro z
    rw [insSort, mem_insertSorted]
    simp [ih z]

theorem pairwise_insSort {α : Type} (le : α → α → Bool)
    (htot : ∀ a b, le a b = true ∨ le b a = true)
    (htrans : ∀ a b c, le a b = true → le b c = true → le a c = true) :
    ∀ (l : List α), List.Pairwise (fun a b => le a b = true) (insSort le l) := by
  intro l
  induction l with
  | nil => simp [insSort]
  | cons x xs ih => exact pairwise_insertSorted le htot htrans x _ ih


theorem depth_le_foldlMax (nodes : List TrieNode) :
    ∀ (a : Nat), (∀ n, n ∈ nodes → n.depth ≤ nodes.foldl (fun x m => max x m.depth) a)
      ∧ a ≤ nodes.foldl (fun x m => max x m.depth) a := by
  induction nodes with
  | nil => intro a; simp
  | cons n0 rest ih =>
    intro a
    obtain ⟨hmem, hbase⟩ := ih (max a n0.depth)
    simp only [List.foldl_cons]
    refine ⟨?_, le_trans (le_max_left a n0.depth) hbase⟩
    intro n hn
    rcases List.mem_cons.mp hn with rfl | hn
    · exact le_trans (le_max_right a n.depth) hbase
    · exact hmem n hn

theorem find?_push_map_other (rest : List (Char × List Nat)) (c c' : Char) (id : Nat)
    (h : c' ≠ c) :
    (rest.map (fun e => if e.1 = c then (e.1, e.2 ++ [id]) else e)).find? (fun e => e.1 = c')
      = rest.find? (fun e => e.1 = c') := by
  induction rest with
  | nil => simp
  | cons e0 rest ih =>
    by_cases h0 : e0.1 = c
    · have hne : ¬ e0.1 = c' := by rw [h0]; exact Ne.symm h
      simp only [List.map_cons, if_pos h0]
      rw [List.find?_cons_of_neg _ (by simpa using hne), List.find?_cons_of_neg _ (by simpa using hne)]
      exact ih
    · simp only [List.map_cons, if_neg h0]
      by_cases h0' : e0.1 = c'
      · rw [List.find?_cons_of_pos _ (by simpa using h0'), List.find?_cons_of_pos _ (by simpa using h0')]
      · rw [List.find?_cons_of_neg _ (by simpa using h0'), List.find?_cons_of_neg _ (by simpa using h0')]
        exact ih

theorem find?_push_map_self (rest : List (Char × List Nat)) (c : Char) (id : Nat) (e : Char × List Nat)
    (h : rest.find? (fun e => e.1 = c) = some e) :
    (rest.map (fun e => if e.1 = c then (e.1, e.2 ++ [id]) else e)).find? (fun e => e.1 = c)
      = some (e.1, e.2 ++ [id]) := by
  induction rest with
  | nil => simp at h
  | cons e0 rest ih =>
    by_cases h0 : e0.1 = c
    · rw [List.find?_cons_of_pos _ (by simpa using h0)] at h
      cases h
      simp only [List.map_cons, if_pos h0]
      rw [List.find?_cons_of_pos _ (by simpa using h0)]
    · rw [List.find?_cons_of_neg _ (by simpa using h0)] at h
      simp only [List.map_cons, if_neg h0]
      rw [List.find?_cons_of_neg _ (by simpa using h0)]
      exact ih h

theorem alGet_alPush_ne (m : List (Char × List Nat)) (c c' : Char) (id : Nat) (h : c' ≠ c) :
    alGet (alPush m c id) c' = alGet m c' := by
  rw [alGet, alGet, alPush]
  by_cases hs : ((m.find? (fun e => e.1 = c)).isSome : Bool)
  · rw [if_pos hs, find?_push_map_other m c c' id h]
  · rw [if_neg hs, List.find?_append]
    have hk : ¬ ((c, [id]).1 = c') := by simpa using Ne.symm h
    cases hc : m.find? (fun e => e.1 = c') with
    | none => simp [List.find?, hk]
    | some e => simp

theorem alGet_alPush_self (m : List (Char × List Nat)) (c : Char) (id : Nat) :
    ∃ bucket, alGet (alPush m c id) c = some bucket ∧ id ∈ bucket
      ∧ ∀ x bucket0, alGet m c = some bucket0 → x ∈ bucket0 → x ∈ bucket := by
  rw [alPush]
  by_cases hs : ((m.find? (fun e => e.1 = c)).isSome : Bool)
  · rcases Option.isSome_iff_exists.mp hs with ⟨e, he⟩
    refine ⟨e.2 ++ [id], ?_, by simp, ?_⟩
    · rw [if_pos hs, alGet, find?_push_map_self m c id e he]
      rfl
    · intro x bucket0 hb hx
      rw [alGet, he] at hb
      simp only [Option.map_some'] at hb
      cases hb
      simp [hx]
  · have hn : m.find? (fun e => e.1 = c) = none := by
      cases hc : m.find? (fun e => e.1 = c) with
      | none => rfl
      | some e => rw [hc] at hs; simp at hs
    refine ⟨[id], ?_, by simp, ?_⟩
    · rw [if_neg hs, alGet, List.find?_append, hn]
      simp
    · intro x bucket0 hb hx
      rw [alGet, hn] at hb
      simp at hb

theorem invStep_mono (ix : List (List (Char × List Nat))) (n : TrieNode)
    (d : Nat) (c : Char) (id : Nat)
    (h : ∃ bucket, alGet (ix.getD d []) c = some bucket ∧ id ∈ bucket) :
    ∃ bucket, alGet ((ix.set n.depth (alPush (ix.getD n.depth []) n.character n.nodeId)).getD d []) c
        = some bucket ∧ id ∈ bucket := by
  by_cases hd : n.depth = d
  · subst hd
    by_cases hlt : n.depth < ix.length
    · rw [List.getD_eq_getElem?_getD, List.getElem?_set, if_pos rfl, if_pos hlt]
      rcases h with ⟨bucket, hget, hid⟩
      by_cases hc : c = n.character
      · subst hc
        obtain ⟨bucket', hget', _, hold⟩ := alGet_alPush_self (ix.getD n.depth []) n.character n.nodeId
        rw [Option.getD_some]
        exact ⟨bucket', hget', hold id bucket hget hid⟩
      · rw [Option.getD_some, alGet_alPush_ne _ _ _ _ hc]
        exact ⟨bucket, hget, hid⟩
    · rw [List.set_eq_of_length_le (by omega)]
      exact h
  · rw [List.getD_eq_getElem?_getD, List.getElem?_set, if_neg hd, ← List.getD_eq_getElem?_getD]
    exact h

theorem invFold_length (nodes : List TrieNode) :
    ∀ ix : List (List (Char × List Nat)),
      (nodes.foldl (fun ix n => ix.set n.depth (alPush (ix.getD n.depth []) n.character n.nodeId)) ix).length
        = ix.length := by
  induction nodes with
  | nil => intro ix; rfl
  | cons n0 rest ih =>
    intro ix
    simp only [List.foldl_cons]
    rw [ih, List.length_set]

theorem invFold_mono (nodes : List TrieNode) :
    ∀ (ix : List (List (Char × List Nat))) (d : Nat) (c : Char) (id : Nat),
      (∃ bucket, alGet (ix.getD d []) c = some bucket ∧ id ∈ bucket) →
      ∃ bucket,
        alGet ((nodes.foldl (fun ix n => ix.set n.depth (alPush (ix.getD n.depth []) n.character n.nodeId)) ix).getD d []) c
          = some bucket ∧ id ∈ bucket := by
  induction nodes with
  | nil => intro ix d c id h; exact h
  | cons n0 rest ih =>
    intro ix d c id h
    simp only [List.foldl_cons]
    exact ih _ d c id (invStep_mono ix n0 d c id h)

theorem invFold_mem (nodes : List TrieNode) :
    ∀ (ix : List (List (Char × List Nat))),
      (∀ n', n' ∈ nodes → n'.depth < ix.length) →
      ∀ n, n ∈ nodes →
        ∃ bucket,
          alGet ((nodes.foldl (fun ix n => ix.set n.depth (alPush (ix.getD n.depth []) n.character n.nodeId)) ix).getD n.depth []) n.character
            = some bucket ∧ n.nodeId ∈ bucket := by
  induction nodes with
  | nil => intro ix _ n hn; cases hn
  | cons n0 rest ih =>
    intro ix hdepth n hn
    simp only [List.foldl_cons]
    rcases List.mem_cons.mp hn with rfl | hn
    · refine invFold_mono rest _ n.depth n.character n.nodeId ?_
      have hlt : n.depth < ix.length := hdepth n (List.mem_cons_self n rest)
      rw [List.getD_eq_getElem?_getD, List.getElem?_set, if_pos rfl, if_pos hlt, Option.getD_some]
      obtain ⟨bucket, hget, hid, _⟩ := alGet_alPush_self (ix.getD n.depth []) n.character n.nodeId
      exact ⟨bucket, hget, hid⟩
    · refine ih _ ?_ n hn
      intro n' hn'
      rw [List.length_set]
      exact hdepth n' (List.mem_cons_of_mem n0 hn')

theorem alGet_map_sort (cm : List (Char × List Nat)) (c : Char) :
    alGet (cm.map (fun e => (e.1, insSort (fun a b => Nat.ble a b) e.2))) c
      = (alGet cm c).map (insSort (fun a b => Nat.ble a b)) := by
  induction cm with
  | nil => simp [alGet]
  | cons e0 rest ih =>
    by_cases h0 : e0.1 = c
    · rw [alGet, alGet, List.map_cons, List.find?_cons_of_pos _ (by simpa using h0),
        List.find?_cons_of_pos _ (by simpa using h0)]
      rfl
    · rw [alGet, alGet, List.map_cons, List.find?_cons_of_neg _ (by simpa using h0),
        List.find?_cons_of_neg _ (by simpa using h0)]
      exact ih

theorem getD_map_sortEntry (idx : List (List (Char × List Nat))) (d : Nat) :
    (idx.map (fun cm => cm.map (fun e => (e.1, insSort (fun a b => Nat.ble a b) e.2)))).getD d []
      = (idx.getD d []).map (fun e => (e.1, insSort (fun a b => Nat.ble a b) e.2)) := by
  rw [List.getD_eq_getElem?_getD, List.getElem?_map, List.getD_eq_getElem?_getD]
  cases hx : idx[d]? with
  | none => rfl
  | some cm => rfl

theorem invNew_get (nodes : List TrieNode) (d : Nat) (c : Char)
    (hd : d ≤ trieMaxDepth nodes) :
    (InvIndex.new nodes).get d c
      = some ((alGet ((nodes.foldl
          (fun ix n => ix.set n.depth (alPush (ix.getD n.depth []) n.character n.nodeId))
          (List.replicate (trieMaxDepth nodes + 1) [])).getD d []) c).map
            (insSort (fun a b => Nat.ble a b))) := by
  rw [InvIndex.get]
  have hlen : (InvIndex.new nodes).index.length = trieMaxDepth nodes + 1 := by
    show ((nodes.foldl _ (List.replicate (trieMaxDepth nodes + 1) [])).map _).length = _
    rw [List.length_map, invFold_length, List.length_replicate]
  rw [if_pos (by omega)]
  show some (alGet ((List.map _ _).getD d []) c) = _
  rw [getD_map_sortEntry, alGet_map_sort]

/-- C10: for every trie, InvertedIndex::new indexes every node including the
root (the construction loop runs over all nodes, not only non-root ones):
the bucket at (depth, character) of each node contains that node's id; in
particular, for a trie built by Trie::new, the depth-0 bucket of the
sentinel character U+0000 contains id 0; and every bucket is sorted in
ascending id order. -/
theorem c10_inverted_index_all_nodes :
    (∀ (nodes : List TrieNode) (n : TrieNode), n ∈ nodes →
      ∃ bucket, (InvIndex.new nodes).get n.depth n.character = some (some bucket)
        ∧ n.nodeId ∈ bucket)
    ∧ (∀ source : List (List Char),
        ∃ bucket0, (InvIndex.new (Trie.new source).nodes).get 0 (Char.ofNat 0)
          = some (some bucket0) ∧ 0 ∈ bucket0)
    ∧ (∀ (nodes : List TrieNode) (d : Nat) (c : Char) (bucket : List Nat),
        (InvIndex.new nodes).get d c = some (some bucket) →
        List.Pairwise (fun a b : Nat => a ≤ b) bucket) := by
  have hmain : ∀ (nodes : List TrieNode) (n : TrieNode), n ∈ nodes →
      ∃ bucket, (InvIndex.new nodes).get n.depth n.character = some (some bucket)
        ∧ n.nodeId ∈ bucket := by
    intro nodes n hn
    have hdep : n.depth ≤ trieMaxDepth nodes := (depth_le_foldlMax nodes 0).1 n hn
    rw [invNew_get nodes n.depth n.character hdep]
    obtain ⟨bucket, hget, hid⟩ := invFold_mem nodes
      (List.replicate (trieMaxDepth nodes + 1) [])
      (fun n' hn' => by
        rw [List.length_replicate]
        exact Nat.lt_succ_of_le ((depth_le_foldlMax nodes 0).1 n' hn'))
      n hn
    refine ⟨insSort (fun a b => Nat.ble a b) bucket, ?_, ?_⟩
    · rw [hget]
      rfl
    · exact (mem_insSort _ bucket n.nodeId).mpr hid
  have hble_tot : ∀ a b : Nat, Nat.ble a b = true ∨ Nat.ble b a = true := by
    intro a b
    rcases Nat.le_total a b with h | h
    · exact Or.inl (Nat.ble_eq.mpr h)
    · exact Or.inr (Nat.ble_eq.mpr h)
  have hble_trans : ∀ a b c : Nat, Nat.ble a b = true → Nat.ble b c = true → Nat.ble a c = true := by
    intro a b c h1 h2
    exact Nat.ble_eq.mpr (le_trans (Nat.ble_eq.mp h1) (Nat.ble_eq.mp h2))
  refine ⟨hmain, ?_, ?_⟩
  · intro source
    obtain ⟨r, hroot, hdepth, hchar, _, hdr⟩ := c9_root_always_built source
    have hmem : r ∈ (Trie.new source).nodes := by
      rw [Trie.root, List.head?_eq_getElem?] at hroot
      exact List.getElem?_mem hroot
    obtain ⟨bucket, hget, hid⟩ := hmain (Trie.new source).nodes r hmem
    rw [hdepth, hchar] at hget
    refine ⟨bucket, hget, ?_⟩
    have hr0 : r.nodeId = 0 := by rw [TrieNode.nodeId, hdr]; rfl
    exact hr0 ▸ hid
  · intro nodes d c bucket hget
    by_cases hd : d ≤ trieMaxDepth nodes
    · rw [invNew_get nodes d c hd] at hget
      cases hbase : alGet ((nodes.foldl
          (fun ix n => ix.set n.depth (alPush (ix.getD n.depth []) n.character n.nodeId))
          (List.replicate (trieMaxDepth nodes + 1) [])).getD d []) c with
      | none => rw [hbase] at hget; simp at hget
      | some b0 =>
        rw [hbase] at hget
        simp only [Option.map_some', Option.some_inj] at hget
        cases hget
        exact List.Pairwise.imp (fun h => Nat.ble_eq.mp h)
          (pairwise_insSort _ hble_tot hble_trans b0)
    · rw [InvIndex.get] at hget
      have hlen : (InvIndex.new nodes).index.length = trieMaxDepth nodes + 1 := by
        show ((nodes.foldl _ (List.replicate (trieMaxDepth nodes + 1) [])).map _).length = _
        rw [List.length_map, invFold_length, List.length_replicate]
      rw [if_neg (by omega)] at hget
      cases hget

/-- Witness for c10_inverted_index_all_nodes over the dataset with the single
string a: the depth-1 node of character a has id 1 in its bucket, the root
bucket holds id 0, and the bucket [1] is sorted. -/
theorem c10_inverted_index_all_nodes_witness :
    (∃ bucket, (InvIndex.new (Trie.new [['a']]).nodes).get
        (⟨'a', (2, 2), (0, 1), 1⟩ : TrieNode).depth
        (⟨'a', (2, 2), (0, 1), 1⟩ : TrieNode).character = some (some bucket)
      ∧ (⟨'a', (2, 2), (0, 1), 1⟩ : TrieNode).nodeId ∈ bucket)
    ∧ (∃ bucket0, (InvIndex.new (Trie.new [['a']]).nodes).get 0 (Char.ofNat 0)
        = some (some bucket0) ∧ 0 ∈ bucket0)
    ∧ List.Pairwise (fun a b : Nat => a ≤ b) [1] := by
  refine ⟨?_, ?_, ?_⟩
  · exact c10_inverted_index_all_nodes.1 (Trie.new [['a']]).nodes
      ⟨'a', (2, 2), (0, 1), 1⟩ (by decide)
  · exact c10_inverted_index_all_nodes.2.1 [['a']]
  · exact c10_inverted_index_all_nodes.2.2 (Trie.new [['a']]).nodes 1 'a' [1] (by decide)

theorem char_lt_iff_toNat (a b : Char) : a < b ↔ a.toNat < b.toNat := by
  rw [Char.lt_def]
  constructor
  · intro h; simpa [UInt32.lt_def] using h
  · intro h; simp [UInt32.lt_def]; exact h

theorem char_le_iff_toNat (a b : Char) : a ≤ b ↔ a.toNat ≤ b.toNat := by
  rw [Char.le_def]
  constructor
  · intro h; simpa [UInt32.le_def] using h
  · intro h; simp [UInt32.le_def]; exact h

theorem char_toNat_lt_size (a : Char) : a.toNat < 1114112 := by
  rcases a.valid with h | h
  · simp only [Char.toNat]; omega
  · simp only [Char.toNat]; omega

theorem strLt_irrefl (s : List Char) : strLt s s = false := by
  induction s with
  | nil => rfl
  | cons a as ih => simp [strLt, ih, lt_irrefl]

theorem strLt_trans : ∀ (a b c : List Char),
    strLt a b = true → strLt b c = true → strLt a c = true := by
  intro a
  induction a with
  | nil =>
    intro b c hab hbc
    cases b with
    | nil => cases hab
    | cons y ys =>
      cases c with
      | nil => cases hbc
      | cons z zs => rfl
  | cons x xs ih =>
    intro b c hab hbc
    cases b with
    | nil => cases hab
    | cons y ys =>
      cases c with
      | nil => cases hbc
      | cons z zs =>
        simp only [strLt, Bool.or_eq_true, Bool.and_eq_true, decide_eq_true_eq] at hab hbc ⊢
        rcases hab with h1 | ⟨he1, h1⟩
        · rcases hbc with h2 | ⟨he2, h2⟩
          · exact Or.inl (lt_trans h1 h2)
          · exact Or.inl (he2 ▸ h1)
        · rcases hbc with h2 | ⟨he2, h2⟩
          · exact Or.inl (he1 ▸ h2)
          · exact Or.inr ⟨he1.trans he2, ih ys zs h1 h2⟩

theorem strLt_total : ∀ (a b : List Char),
    strLt a b = true ∨ a = b ∨ strLt b a = true := by
  intro a
  induction a with
  | nil =>
    intro b
    cases b with
    | nil => exact Or.inr (Or.inl rfl)
    | cons y ys => exact Or.inl rfl
  | cons x xs ih =>
    intro b
    cases b with
    | nil => exact Or.inr (Or.inr rfl)
    | cons y ys =>
      rcases lt_trichotomy x y with h | h | h
      · exact Or.inl (by simp [strLt, h])
      · subst h
        rcases ih ys with h2 | h2 | h2
        · exact Or.inl (by simp [strLt, h2])
        · exact Or.inr (Or.inl (by rw [h2]))
        · exact Or.inr (Or.inr (by simp [strLt, h2]))
      · exact Or.inr (Or.inr (by simp [strLt, h]))

theorem strLt_asymm (a b : List Char) (h : strLt a b = true) : strLt b a = false := by
  cases hb : strLt b a
  · rfl
  · have := strLt_trans a b a h hb
    rw [strLt_irrefl] at this
    cases this

theorem strLt_ne (a b : List Char) (h : strLt a b = true) : a ≠ b := by
  intro he
  subst he
  rw [strLt_irrefl] at h
  cases h

theorem strLe_total (a b : List Char) : strLe a b = true ∨ strLe b a = true := by
  rcases strLt_total a b with h | h | h
  · exact Or.inl (by simp [strLe, h])
  · exact Or.inl (by simp [strLe, h])
  · exact Or.inr (by simp [strLe, h])

theorem strLe_trans (a b c : List Char)
    (h1 : strLe a b = true) (h2 : strLe b c = true) : strLe a c = true := by
  simp only [strLe, Bool.or_eq_true, decide_eq_true_eq] at h1 h2 ⊢
  rcases h1 with h1 | h1
  · rcases h2 with h2 | h2
    · exact Or.inl (strLt_trans a b c h1 h2)
    · exact Or.inl (h2 ▸ h1)
  · subst h1
    exact h2

theorem strLe_antisymm (a b : List Char)
    (h1 : strLe a b = true) (h2 : strLe b a = true) : a = b := by
  simp only [strLe, Bool.or_eq_true, decide_eq_true_eq] at h1 h2
  rcases h1 with h1 | h1
  · rcases h2 with h2 | h2
    · rw [strLt_asymm a b h1] at h2; cases h2
    · exact h2.symm
  · exact h1

theorem strLt_append_left : ∀ (p a b : List Char),
    strLt (p ++ a) (p ++ b) = strLt a b := by
  intro p
  induction p with
  | nil => intro a b; rfl
  | cons c cs ih =>
    intro a b
    simp [strLt, lt_irrefl, ih]

theorem strLt_of_append_lt {p a b : List Char} (h : strLt (p ++ a) (p ++ b) = true) :
    strLt a b = true := by
  rwa [strLt_append_left] at h

theorem isPre_iff (p s : List Char) : isPre p s = true ↔ ∃ t, s = p ++ t := by
  constructor
  · intro h
    refine ⟨s.drop p.length, ?_⟩
    simp only [isPre, decide_eq_true_eq] at h
    conv_lhs => rw [← List.take_append_drop p.length s]
    rw [h]
  · rintro ⟨t, rfl⟩
    simp [isPre, List.take_left]

theorem isPre_refl (p : List Char) : isPre p p = true := by
  rw [isPre_iff]
  exact ⟨[], by simp⟩

theorem isPre_length {p s : List Char} (h : isPre p s = true) : p.length ≤ s.length := by
  rcases (isPre_iff p s).mp h with ⟨t, rfl⟩
  simp

theorem isPre_trans {p q s : List Char} (h1 : isPre p q = true) (h2 : isPre q s = true) :
    isPre p s = true := by
  rcases (isPre_iff p q).mp h1 with ⟨t1, hq⟩
  rcases (isPre_iff q s).mp h2 with ⟨t2, hs⟩
  rw [isPre_iff]
  exact ⟨t1 ++ t2, by rw [hs, hq]; simp⟩

theorem isPre_take (p s : List Char) :
    isPre (s.take p.length) s = true := by
  rw [isPre_iff]
  exact ⟨s.drop p.length, (List.take_append_drop _ s).symm⟩

theorem take_append_cons (p : List Char) (c : Char) (t : List Char) :
    (p ++ c :: t).take (p.length + 1) = p ++ [c] := by
  have : p ++ c :: t = (p ++ [c]) ++ t := by simp
  rw [this]
  have hl : p.length + 1 = (p ++ [c]).length := by simp
  rw [hl, List.take_left]

theorem isPre_take_eq {a b : List Char} (h : isPre a b = true) :
    ∀ n, n ≤ a.length → b.take n = a.take n := by
  rcases (isPre_iff a b).mp h with ⟨t, rfl⟩
  intro n hn
  rw [List.take_append_of_le_length hn]

theorem isPre_char_eq {p : List Char} {c1 c2 : Char} {t1 t2 s1 s2 : List Char}
    (h1 : s1 = p ++ c1 :: t1) (h2 : s2 = p ++ c2 :: t2) (hne : c1 ≠ c2) :
    isPre s1 s2 = false := by
  cases hp : isPre s1 s2
  · rfl
  · have := isPre_take_eq hp (p.length + 1) (by rw [h1]; simp)
    rw [h1, h2, take_append_cons, take_append_cons] at this
    have := List.append_inj_right this rfl
    simp at this
    exact absurd this.symm hne

theorem charSucc_lt_iff {c d : Char} (h : charSucc c = some d) :
    ∀ a : Char, a < d ↔ a ≤ c := by
  rw [charSucc] at h
  by_cases hmax : c.toNat = 1114111
  · rw [if_pos hmax] at h; cases h
  · rw [if_neg hmax] at h
    by_cases hv : (if c.toNat = 55295 then 57344 else c.toNat + 1).isValidChar
    · rw [dif_pos hv] at h
      have hd : d.toNat = (if c.toNat = 55295 then 57344 else c.toNat + 1) := by
        cases h
        show (UInt32.ofNat _).toNat = _
        have hlt : (if c.toNat = 55295 then 57344 else c.toNat + 1) < 4294967296 := by
          have := char_toNat_lt_size c
          by_cases h55 : c.toNat = 55295 <;> simp [h55] <;> omega
        simp [UInt32.ofNat, UInt32.toNat, Fin.ofNat]
        omega
      intro a
      rw [char_lt_iff_toNat, char_le_iff_toNat, hd]
      by_cases h55 : c.toNat = 55295
      · rw [if_pos h55, h55]
        rcases a.valid with ha | ha
        · simp only [Char.toNat] at *
          omega
        · simp only [Char.toNat] at *
          omega
      · rw [if_neg h55]
        omega
    · rw [dif_neg hv] at h; cases h

theorem charSucc_none_le {c : Char} (h : charSucc c = none) : ∀ a : Char, a ≤ c := by
  rw [charSucc] at h
  by_cases hmax : c.toNat = 1114111
  · intro a
    rw [char_le_iff_toNat, hmax]
    have := char_toNat_lt_size a
    omega
  · rw [if_neg hmax] at h
    by_cases hv : (if c.toNat = 55295 then 57344 else c.toNat + 1).isValidChar
    · rw [dif_pos hv] at h; cases h
    · exfalso
      apply hv
      by_cases h55 : c.toNat = 55295
      · rw [if_pos h55]
        show 57344 < 55296 ∨ 57343 < 57344 ∧ 57344 < 1114112
        omega
      · rw [if_neg h55]
        rcases c.valid with hc | hc
        · show c.toNat + 1 < 55296 ∨ 57343 < c.toNat + 1 ∧ c.toNat + 1 < 1114112
          simp only [Char.toNat] at *
          omega
        · show c.toNat + 1 < 55296 ∨ 57343 < c.toNat + 1 ∧ c.toNat + 1 < 1114112
          have := char_toNat_lt_size c
          simp only [Char.toNat] at *
          omega

theorem mem_dedupAdj : ∀ (l : List (List Char)) (z : List Char), z ∈ dedupAdj l → z ∈ l := by
  intro l
  induction l with
  | nil => intro z h; cases h
  | cons a rest ih =>
    intro z h
    cases rest with
    | nil => exact h
    | cons b rest2 =>
      rw [dedupAdj] at h
      by_cases hab : a = b
      · rw [if_pos hab] at h
        exact List.mem_cons_of_mem a (ih z h)
      · rw [if_neg hab] at h
        rcases List.mem_cons.mp h with rfl | h
        · exact List.mem_cons_self z _
        · exact List.mem_cons_of_mem a (ih z h)

theorem pairwise_dedupAdj : ∀ (l : List (List Char)),
    List.Pairwise (fun x y => strLe x y = true) l →
    List.Pairwise (fun x y => strLt x y = true) (dedupAdj l) := by
  intro l
  induction l with
  | nil => intro _; exact List.Pairwise.nil
  | cons a rest ih =>
    intro hp
    rcases List.pairwise_cons.mp hp with ⟨ha, hrest⟩
    cases rest with
    | nil => simp [dedupAdj]
    | cons b rest2 =>
      rw [dedupAdj]
      by_cases hab : a = b
      · rw [if_pos hab]
        exact ih hrest
      · rw [if_neg hab]
        refine List.pairwise_cons.mpr ⟨?_, ih hrest⟩
        intro z hz
        have hzmem : z ∈ b :: rest2 := mem_dedupAdj _ z hz
        have hle : strLe a z = true := ha z hzmem
        have hne : a ≠ z := by
          intro he
          subst he
          rcases List.mem_cons.mp hzmem with he2 | he2
          · exact hab he2
          · rcases List.pairwise_cons.mp hrest with ⟨hb, _⟩
            have h1 : strLe b a = true := hb a he2
            have h2 : strLe a b = true := ha b (List.mem_cons_self b rest2)
            exact hab (strLe_antisymm a b h2 h1)
        simp only [strLe, Bool.or_eq_true, decide_eq_true_eq] at hle
        rcases hle with hlt | he
        · exact hlt
        · exact absurd he hne

theorem sorted_trieStrings (source : List (List Char)) :
    List.Pairwise (fun x y => strLt x y = true) (dedupAdj (insSort strLe source)) :=
  pairwise_dedupAdj _ (pairwise_insSort strLe
    (fun a b => by rcases strLe_total a b with h | h; exacts [Or.inl h, Or.inr h])
    strLe_trans source)

theorem countP_partition {α : Type} (p : α → Bool) :
    ∀ (l : List α),
      (∀ i j (hi : i < l.length) (hj : j < l.length), i ≤ j → p l[j] = true → p l[i] = true) →
      l.countP p ≤ l.length ∧ ∀ k (hk : k < l.length), (k < l.countP p ↔ p l[k] = true) := by
  intro l
  induction l with
  | nil =>
    intro _
    refine ⟨le_refl 0, ?_⟩
    intro k hk
    cases hk
  | cons x xs ih =>
    intro hdc
    have hdc' : ∀ i j (hi : i < xs.length) (hj : j < xs.length), i ≤ j →
        p xs[j] = true → p xs[i] = true := by
      intro i j hi hj hij hpj
      have := hdc (i + 1) (j + 1) (by simpa using hi) (by simpa using hj) (by omega)
      simpa using this (by simpa using hpj)
    obtain ⟨hle, hiff⟩ := ih hdc'
    by_cases hx : p x = true
    · rw [List.countP_cons_of_pos _ _ hx]
      refine ⟨by simpa using hle, ?_⟩
      intro k hk
      cases k with
      | zero => simpa using hx
      | succ k =>
        have hk' : k < xs.length := by simpa using hk
        simpa using hiff k hk'
    · rw [List.countP_cons_of_neg _ _ (by simpa using hx)]
      have hzero : xs.countP p = 0 := by
        rw [List.countP_eq_zero]
        intro a ha
        rcases List.mem_iff_getElem.mp ha with ⟨i, hi, rfl⟩
        intro hpa
        exact hx (hdc 0 (i + 1) (by simp) (by simpa using hi) (by omega) (by simpa using hpa))
      rw [hzero]
      refine ⟨by simp, ?_⟩
      intro k hk
      cases k with
      | zero => simpa using hx
      | succ k =>
        have hk' : k < xs.length := by simpa using hk
        constructor
        · intro h; cases h
        · intro h
          exfalso
          have h2 := (hiff k hk').mpr (by simpa using h)
          rw [hzero] at h2
          cases h2

theorem remSum_split (strings : List (List Char)) (cs mid stop ss : Nat)
    (h1 : cs ≤ mid) (h2 : mid ≤ stop) :
    remSum strings cs stop ss = remSum strings cs mid ss + remSum strings mid stop ss := by
  rw [remSum, remSum, remSum]
  have hr : List.range' cs (stop - cs) = List.range' cs (mid - cs) ++ List.range' mid (stop - mid) := by
    have h := List.range'_append cs (mid - cs) (stop - mid) 1
    rw [show cs + 1 * (mid - cs) = mid by omega] at h
    rw [show stop - cs = stop - mid + (mid - cs) by omega]
    exact h.symm
  rw [hr, List.map_append, List.sum_append]


theorem remSum_single (strings : List (List Char)) (cs ss : Nat) :
    remSum strings cs (cs + 1) ss = (strings.getD cs []).length - ss := by
  rw [remSum, show cs + 1 - cs = 1 by omega]
  simp

theorem remSum_shift (strings : List (List Char)) :
    ∀ (n cs ss : Nat),
      (∀ k, cs ≤ k → k < cs + n → ss + 1 ≤ (strings.getD k []).length) →
      remSum strings cs (cs + n) ss = remSum strings cs (cs + n) (ss + 1) + n := by
  intro n
  induction n with
  | zero => intro cs ss _; simp [remSum]
  | succ n ih =>
    intro cs ss hbound
    have hsplit1 : remSum strings cs (cs + (n + 1)) ss
        = remSum strings cs (cs + 1) ss + remSum strings (cs + 1) (cs + (n + 1)) ss :=
      remSum_split strings cs (cs + 1) (cs + (n + 1)) ss (by omega) (by omega)
    have hsplit2 : remSum strings cs (cs + (n + 1)) (ss + 1)
        = remSum strings cs (cs + 1) (ss + 1) + remSum strings (cs + 1) (cs + (n + 1)) (ss + 1) :=
      remSum_split strings cs (cs + 1) (cs + (n + 1)) (ss + 1) (by omega) (by omega)
    have hp := ih (cs + 1) ss (fun k hk1 hk2 => hbound k (by omega) (by omega))
    rw [show cs + 1 + n = cs + (n + 1) by omega] at hp
    have hs1 := remSum_single strings cs ss
    have hs2 := remSum_single strings cs (ss + 1)
    have hb := hbound cs (le_refl cs) (by omega)
    omega

theorem remSum_mono (strings : List (List Char)) (cs cs' stop ss : Nat)
    (h1 : cs ≤ cs') (h2 : cs' ≤ stop) :
    remSum strings cs' stop ss ≤ remSum strings cs stop ss := by
  rw [remSum_split strings cs cs' stop ss h1 h2]
  omega

theorem sum_range'_getD (f : List Char → Nat) :
    ∀ (l : List (List Char)), ((List.range' 0 l.length).map (fun k => f (l.getD k []))).sum
      = (l.map f).sum := by
  intro l
  induction l with
  | nil => simp
  | cons x xs ih =>
    rw [List.length_cons, List.range'_succ, List.map_cons, List.sum_cons, List.map_cons,
      List.sum_cons]
    congr 1
    rw [← ih]
    have hshift : List.range' 1 xs.length = (List.range' 0 xs.length).map (fun k => k + 1) := by
      rw [List.range'_eq_map_range, List.range'_eq_map_range, List.map_map]
      refine List.map_congr_left ?_
      intro a _
      simp
      omega
    rw [hshift, List.map_map]
    refine congrArg List.sum (List.map_congr_left ?_)
    intro a _
    simp

theorem remSum_all (strings : List (List Char)) :
    remSum strings 0 strings.length 0 = (strings.map List.length).sum := by
  rw [remSum, Nat.sub_zero]
  rw [show (fun k => (strings.getD k []).length - 0) = (fun k => (strings.getD k []).length)
    from funext (fun k => by omega)]
  exact sum_range'_getD List.length strings

theorem isPre_cases {p s : List Char} (h : isPre p s = true) :
    s = p ∨ ∃ c t, s = p ++ c :: t := by
  rcases (isPre_iff p s).mp h with ⟨ts, rfl⟩
  cases ts with
  | nil => exact Or.inl (by simp)
  | cons c t => exact Or.inr ⟨c, t, rfl⟩

theorem strLt_self_append_cons (p : List Char) (c : Char) (t : List Char) :
    strLt p (p ++ c :: t) = true := by
  have := strLt_append_left p [] (c :: t)
  simpa using this

theorem append_cons_lt_head {p : List Char} {c1 c2 : Char} {t1 t2 : List Char}
    (h : strLt (p ++ c1 :: t1) (p ++ c2 :: t2) = true) : c1 ≤ c2 := by
  rw [strLt_append_left] at h
  simp only [strLt, Bool.or_eq_true, Bool.and_eq_true, decide_eq_true_eq] at h
  rcases h with h | ⟨h, _⟩
  · exact le_of_lt h
  · exact le_of_eq h

theorem lt_marker_of_le {c d : Char} (hsucc : charSucc c = some d) (p : List Char)
    (c' : Char) (t : List Char) (hle : c' ≤ c) :
    strLt (p ++ c' :: t) (p ++ [d]) = true := by
  rw [strLt_append_left]
  simp only [strLt, Bool.or_eq_true, Bool.and_eq_true, decide_eq_true_eq]
  exact Or.inl ((charSucc_lt_iff hsucc c').mpr hle)

theorem strLt_nil_right (s : List Char) : strLt s [] = false := by
  cases s <;> rfl

theorem le_of_lt_marker {c d : Char} (hsucc : charSucc c = some d) (p : List Char)
    (c' : Char) (t : List Char) (h : strLt (p ++ c' :: t) (p ++ [d]) = true) : c' ≤ c := by
  rw [strLt_append_left] at h
  simp only [strLt, Bool.or_eq_true, Bool.and_eq_true, decide_eq_true_eq] at h
  rcases h with h | ⟨he, h⟩
  · exact (charSucc_lt_iff hsucc c').mp h
  · rw [strLt_nil_right] at h; cases h
  
theorem gt_of_not_lt_marker {c d : Char} (hsucc : charSucc c = some d) (p : List Char)
    (c' : Char) (t : List Char) (h : strLt (p ++ c' :: t) (p ++ [d]) = false) : c < c' := by
  by_contra hc
  rw [lt_marker_of_le hsucc p c' t (le_of_not_lt hc)] at h
  cases h

theorem p_lt_marker {c d : Char} (hsucc : charSucc c = some d) (p : List Char) :
    strLt p (p ++ [d]) = true :=
  strLt_self_append_cons p d []

theorem getD_congr_of_getElem? {ns ns' : List TrieNode} {j : Nat}
    (h : ns'[j]? = ns[j]?) : ns'.getD j default = ns.getD j default := by
  rw [List.getD_eq_getElem?_getD, List.getD_eq_getElem?_getD, h]

theorem pfxAt_congr {strings : List (List Char)} {ns ns' : List TrieNode} {j : Nat}
    (h : ns'[j]? = ns[j]?) : pfxAt strings ns' j = pfxAt strings ns j := by
  rw [pfxAt, pfxAt, getD_congr_of_getElem? h]

theorem forestInv_congr {strings : List (List Char)} {ns ns' : List TrieNode}
    {lo hi : Nat} {p : List Char}
    (h : ∀ j, lo ≤ j → j < hi → ns'[j]? = ns[j]?)
    (hinv : ForestInv strings ns lo hi p) : ForestInv strings ns' lo hi p := by
  obtain ⟨h1, h2⟩ := hinv
  constructor
  · intro j hj1 hj2
    rw [pfxAt_congr (h j hj1 hj2), getD_congr_of_getElem? (h j hj1 hj2)]
    exact h1 j hj1 hj2
  · intro i j hi1 hi2 hj1 hj2
    rw [pfxAt_congr (h i hi1 hi2), pfxAt_congr (h j hj1 hj2),
      getD_congr_of_getElem? (h i hi1 hi2)]
    exact h2 i j hi1 hi2 hj1 hj2

theorem blockInv_congr {strings : List (List Char)} {ns ns' : List TrieNode}
    {lo hi : Nat} {p : List Char}
    (h : ∀ j, lo ≤ j → j < hi → ns'[j]? = ns[j]?)
    (hinv : BlockInv strings ns lo hi p) : BlockInv strings ns' lo hi p := by
  obtain ⟨h1, h2, h3⟩ := hinv
  refine ⟨?_, ?_, ?_⟩
  · intro j hj1 hj2
    rw [pfxAt_congr (h j hj1 hj2), getD_congr_of_getElem? (h j hj1 hj2)]
    exact h1 j hj1 hj2
  · intro hlo
    rw [pfxAt_congr (h lo (le_refl lo) hlo), getD_congr_of_getElem? (h lo (le_refl lo) hlo)]
    exact h2 hlo
  · intro i j hi1 hi2 hj1 hj2
    rw [pfxAt_congr (h i hi1 hi2), pfxAt_congr (h j hj1 hj2),
      getD_congr_of_getElem? (h i hi1 hi2)]
    exact h3 i j hi1 hi2 hj1 hj2

theorem sorted_getD {strings : List (List Char)}
    (hsort : List.Pairwise (fun x y => strLt x y = true) strings)
    {i j : Nat} (hij : i < j) (hj : j < strings.length) :
    strLt (strings.getD i []) (strings.getD j []) = true := by
  have h := List.pairwise_iff_getElem.mp hsort i j (lt_trans hij hj) hj hij
  rw [List.getD_eq_getElem?_getD, List.getD_eq_getElem?_getD,
    List.getElem?_eq_getElem (lt_trans hij hj), List.getElem?_eq_getElem hj]
  exact h

theorem getD_in_range {strings : List (List Char)} {k : Nat} (hk : k < strings.length) :
    strings.getD k [] = strings[k] := by
  rw [List.getD_eq_getElem?_getD, List.getElem?_eq_getElem hk]
  rfl

theorem marker_partition (strings : List (List Char))
    (hsort : List.Pairwise (fun x y => strLt x y = true) strings)
    (start stop : Nat) (hss : start ≤ stop) (hstop : stop ≤ strings.length) (m : List Char) :
    start + ((strings.drop start).take (stop - start)).countP (fun s => strLt s m) ≤ stop
    ∧ (∀ k, start ≤ k →
        k < start + ((strings.drop start).take (stop - start)).countP (fun s => strLt s m) →
        strLt (strings.getD k []) m = true)
    ∧ (∀ k, start + ((strings.drop start).take (stop - start)).countP (fun s => strLt s m) ≤ k →
        k < stop → strLt (strings.getD k []) m = false) := by
  · have hslice_len : ((strings.drop start).take (stop - start)).length = stop - start := by
      rw [List.length_take, List.length_drop]
      omega
    have hslice : ∀ (i : Nat) (hi : i < ((strings.drop start).take (stop - start)).length),
        ((strings.drop start).take (stop - start))[i] = strings.getD (start + i) [] := by
      intro i hi
      rw [List.getElem_take, List.getElem_drop, getD_in_range (by omega)]
    obtain ⟨hcnt, hiff⟩ := countP_partition (fun s => strLt s m)
      ((strings.drop start).take (stop - start))
      (by
        intro i j hi hj hij hpj
        rcases Nat.eq_or_lt_of_le hij with rfl | hlt
        · exact hpj
        · rw [hslice j hj] at hpj
          rw [hslice i hi]
          have hso := sorted_getD hsort (by omega : start + i < start + j) (by omega)
          exact strLt_trans _ _ _ hso hpj)
    rw [hslice_len] at hcnt
    refine ⟨by omega, ?_, ?_⟩
    · intro k hk1 hk2
      have hk3 : k - start < stop - start := by omega
      have := (hiff (k - start) (by rw [hslice_len]; omega)).mp (by omega)
      rw [hslice (k - start) (by rw [hslice_len]; omega)] at this
      rw [show start + (k - start) = k by omega] at this
      exact this
    · intro k hk1 hk2
      have hk3 : k - start < stop - start := by omega
      cases hv : strLt (strings.getD k []) m
      · rfl
      · exfalso
        have := (hiff (k - start) (by rw [hslice_len]; omega)).mpr (by
          rw [hslice (k - start) (by rw [hslice_len]; omega)]
          rw [show start + (k - start) = k by omega]
          exact hv)
        omega

theorem remSum_shift_range (strings : List (List Char)) (cs stop ss : Nat) (h : cs ≤ stop)
    (hbound : ∀ k, cs ≤ k → k < stop → ss + 1 ≤ (strings.getD k []).length) :
    remSum strings cs stop ss = remSum strings cs stop (ss + 1) + (stop - cs) := by
  have hx := remSum_shift strings (stop - cs) cs ss (fun k hk1 hk2 => hbound k hk1 (by omega))
  rw [show cs + (stop - cs) = stop by omega] at hx
  exact hx

theorem forestInv_empty (strings : List (List Char)) (ns : List TrieNode) (lo : Nat)
    (p : List Char) : ForestInv strings ns lo lo p := by
  constructor
  · intro j hj1 hj2; omega
  · intro i j hi1 hi2; omega

theorem initGo_loop_stop (strings : List (List Char)) (f depth : Nat) (pfx : List Char)
    (ss st sp : Nat) (ns : List TrieNode) :
    initGo strings f (.loop depth pfx ss st sp sp) ns = ns := by
  cases f <;> simp [initGo]

theorem isPre_nil (s : List Char) : isPre [] s = true := by
  simp [isPre]

theorem isPre_append_cons (p : List Char) (c : Char) (t : List Char) :
    isPre (p ++ [c]) (p ++ c :: t) = true := by
  rw [isPre_iff]
  exact ⟨t, by simp⟩

theorem isPre_append_single (p : List Char) (c : Char) : isPre p (p ++ [c]) = true := by
  rw [isPre_iff]
  exact ⟨[c], rfl⟩

theorem blockInv_to_forest (strings : List (List Char)) (p : List Char) (c : Char)
    (lo hi : Nat) (ns : List TrieNode)
    (hB : BlockInv strings ns lo hi (p ++ [c])) :
    ForestInv strings ns lo hi p := by
  obtain ⟨h1, _, h3⟩ := hB
  constructor
  · intro j hj1 hj2
    obtain ⟨ha, hb, _, hd⟩ := h1 j hj1 hj2
    refine ⟨isPre_trans (isPre_append_single p c) ha, hb, ?_, hd⟩
    have hlen := isPre_length ha
    simp only [List.length_append, List.length_singleton] at hlen
    omega
  · exact h3

theorem forestInv_merge (strings : List (List Char)) (p : List Char) (c : Char)
    (mid : Nat) (ns res : List TrieNode)
    (hmid1 : ns.length ≤ mid) (hmid2 : mid ≤ res.length)
    (hB : BlockInv strings res ns.length mid (p ++ [c]))
    (hF : ForestInv strings res mid res.length p)
    (hFchar : ∀ j, mid ≤ j → j < res.length →
      ∃ c', c < c' ∧ isPre (p ++ [c']) (pfxAt strings res j) = true) :
    ForestInv strings res ns.length res.length p := by
  have hBF := blockInv_to_forest strings p c ns.length mid res hB
  obtain ⟨hB1, _, hB3⟩ := hB
  obtain ⟨hBF1, _⟩ := hBF
  obtain ⟨hF1, hF2⟩ := hF
  constructor
  · intro j hj1 hj2
    by_cases hj' : j < mid
    · obtain ⟨ha, hb, hc, hd⟩ := hBF1 j hj1 hj'
      exact ⟨ha, hb, hc, le_trans hd hmid2⟩
    · exact hF1 j (by omega) hj2
  · intro i j hi1 hi2 hj1 hj2
    by_cases hi' : i < mid
    · by_cases hj' : j < mid
      · exact hB3 i j hi1 hi' hj1 hj'
      · refine iff_of_false ?_ ?_
        · rintro ⟨hlt, hdr⟩
          have := (hB1 i hi1 hi').2.2.2
          omega
        · rintro ⟨hpp, _⟩
          obtain ⟨ri, hri⟩ := (isPre_iff _ _).mp (hB1 i hi1 hi').1
          obtain ⟨c', hcc', hj'pre⟩ := hFchar j (by omega) hj2
          obtain ⟨rj, hrj⟩ := (isPre_iff _ _).mp hj'pre
          have h1 : pfxAt strings res i = p ++ c :: ri := by rw [hri]; simp
          have h2 : pfxAt strings res j = p ++ c' :: rj := by rw [hrj]; simp
          have hfalse : isPre (pfxAt strings res i) (pfxAt strings res j) = false :=
            isPre_char_eq h1 h2 (ne_of_lt hcc')
          rw [hfalse] at hpp
          cases hpp
    · by_cases hj' : j < mid
      · refine iff_of_false ?_ ?_
        · rintro ⟨hlt, _⟩
          omega
        · rintro ⟨hpp, _⟩
          obtain ⟨c', hcc', hi'pre⟩ := hFchar i (by omega) hi2
          obtain ⟨ri, hri⟩ := (isPre_iff _ _).mp hi'pre
          obtain ⟨rj, hrj⟩ := (isPre_iff _ _).mp (hB1 j hj1 hj').1
          have h1 : pfxAt strings res i = p ++ c' :: ri := by rw [hri]; simp
          have h2 : pfxAt strings res j = p ++ c :: rj := by rw [hrj]; simp
          have hfalse : isPre (pfxAt strings res i) (pfxAt strings res j) = false :=
            isPre_char_eq h1 h2 (Ne.symm (ne_of_lt hcc'))
          rw [hfalse] at hpp
          cases hpp
      · exact hF2 i j (by omega) hi2 (by omega) hj2

theorem blockInv_assemble (strings : List (List Char)) (p : List Char) (lastChar : Char)
    (start stop : Nat) (cid : Nat) (B : List TrieNode)
    (hpre : ∀ k, start ≤ k → k < stop → isPre p (strings.getD k []) = true)
    (hnz : start < stop ∨ p = [])
    (hlenB : cid + 1 ≤ B.length)
    (hroot : B[cid]? = some ⟨lastChar, (0, 0), (start, stop), p.length⟩)
    (hF : ForestInv strings B (cid + 1) B.length p) :
    BlockInv strings
      (B.set cid { B.getD cid default with descendantRange := (cid + 1, B.length) })
      cid (B.set cid { B.getD cid default with descendantRange := (cid + 1, B.length) }).length
      p := by
  have hcidlt : cid < B.length := by omega
  have hgetDroot : B.getD cid default
      = (⟨lastChar, (0, 0), (start, stop), p.length⟩ : TrieNode) := by
    rw [List.getD_eq_getElem?_getD, hroot]
    rfl
  have hsetval : { B.getD cid default with descendantRange := (cid + 1, B.length) }
      = (⟨lastChar, (cid + 1, B.length), (start, stop), p.length⟩ : TrieNode) := by
    rw [hgetDroot]
  rw [hsetval]
  simp only [List.length_set]
  have hRne : ∀ j, j ≠ cid →
      (B.set cid (⟨lastChar, (cid + 1, B.length), (start, stop), p.length⟩ : TrieNode))[j]?
        = B[j]? := by
    intro j hj
    exact List.getElem?_set_ne (by omega)
  have hRcid :
      (B.set cid (⟨lastChar, (cid + 1, B.length), (start, stop), p.length⟩ : TrieNode))[cid]?
        = some (⟨lastChar, (cid + 1, B.length), (start, stop), p.length⟩ : TrieNode) :=
    List.getElem?_set_self (by omega)
  have hRgetD :
      (B.set cid (⟨lastChar, (cid + 1, B.length), (start, stop), p.length⟩ : TrieNode)).getD
        cid default
        = (⟨lastChar, (cid + 1, B.length), (start, stop), p.length⟩ : TrieNode) := by
    rw [List.getD_eq_getElem?_getD, hRcid]
    rfl
  have hpfxcid :
      pfxAt strings
        (B.set cid (⟨lastChar, (cid + 1, B.length), (start, stop), p.length⟩ : TrieNode)) cid
        = p := by
    simp only [pfxAt]
    rw [hRgetD]
    show (strings.getD start []).take p.length = p
    rcases hnz with hlt | hnil
    · have hp := hpre start (le_refl start) hlt
      simpa [isPre] using hp
    · subst hnil
      simp
  have hFR : ForestInv strings
      (B.set cid (⟨lastChar, (cid + 1, B.length), (start, stop), p.length⟩ : TrieNode))
      (cid + 1) B.length p :=
    forestInv_congr (fun j hj1 _ => hRne j (by omega)) hF
  obtain ⟨hF1, hF2⟩ := hFR
  refine ⟨?_, ?_, ?_⟩
  · intro j hj1 hj2
    rcases Nat.eq_or_lt_of_le hj1 with rfl | hj1'
    · refine ⟨by rw [hpfxcid]; exact isPre_refl p, ?_, ?_, ?_⟩
      · rw [hpfxcid, hRgetD]
      · intro h
        omega
      · rw [hRgetD]
    · obtain ⟨ha, hb, hc, hd⟩ := hF1 j hj1' hj2
      exact ⟨ha, hb, fun _ => hc, hd⟩
  · intro hlo
    refine ⟨hpfxcid, ?_⟩
    rw [hRgetD]
  · intro i j hi1 hi2 hj1 hj2
    rcases Nat.eq_or_lt_of_le hi1 with rfl | hi1'
    · rcases Nat.eq_or_lt_of_le hj1 with rfl | hj1'
      · refine iff_of_false ?_ ?_
        · rintro ⟨h, _⟩
          omega
        · rintro ⟨_, hne⟩
          exact hne rfl
      · refine iff_of_true ⟨hj1', ?_⟩ ⟨?_, ?_⟩
        · rw [hRgetD]
          exact hj2
        · rw [hpfxcid]
          exact (hF1 j hj1' hj2).1
        · rw [hpfxcid]
          obtain ⟨_, hb, hc, _⟩ := hF1 j hj1' hj2
          intro heq
          have hlen := congrArg List.length heq
          omega
    · rcases Nat.eq_or_lt_of_le hj1 with rfl | hj1'
      · refine iff_of_false ?_ ?_
        · rintro ⟨h, _⟩
          omega
        · rintro ⟨hpp, _⟩
          rw [hpfxcid] at hpp
          obtain ⟨_, hb, hc, _⟩ := hF1 i hi1' hi2
          have hle := isPre_length hpp
          omega
      · exact hF2 i j hi1' hi2 hj1' hj2

theorem initGo_node_eq (strings : List (List Char)) (fuel depth : Nat) (pfx : List Char)
    (lastChar : Char) (ss start stop : Nat) (ns : List TrieNode) :
    initGo strings (fuel + 1) (.node depth pfx lastChar ss start stop) ns
      = (initGo strings fuel (.loop depth pfx ss start start stop)
          (ns ++ [(⟨lastChar, (0, 0), (start, stop), depth⟩ : TrieNode)])).set ns.length
          { (initGo strings fuel (.loop depth pfx ss start start stop)
              (ns ++ [(⟨lastChar, (0, 0), (start, stop), depth⟩ : TrieNode)])).getD
              ns.length default
            with descendantRange :=
              (ns.length + 1,
                (initGo strings fuel (.loop depth pfx ss start start stop)
                  (ns ++ [(⟨lastChar, (0, 0), (start, stop), depth⟩ : TrieNode)])).length) } :=
  rfl

theorem initGo_loop_skip (strings : List (List Char)) (fuel depth : Nat) (pfx : List Char)
    (ss start childStart stop : Nat) (ns : List TrieNode)
    (hne : ¬childStart = stop)
    (hh : ((strings.getD childStart []).drop ss).head? = none) :
    initGo strings (fuel + 1) (.loop depth pfx ss start childStart stop) ns
      = initGo strings fuel (.loop depth pfx ss start (childStart + 1) stop) ns := by
  simp only [initGo, if_neg hne, hh]

theorem initGo_loop_succ (strings : List (List Char)) (fuel depth : Nat) (pfx : List Char)
    (ss start childStart stop : Nat) (ns : List TrieNode) (c d : Char)
    (hne : ¬childStart = stop)
    (hh : ((strings.getD childStart []).drop ss).head? = some c)
    (hsucc : charSucc c = some d) :
    initGo strings (fuel + 1) (.loop depth pfx ss start childStart stop) ns
      = initGo strings fuel
          (.loop depth pfx ss start
            (start + ((strings.drop start).take (stop - start)).countP
              (fun s => strLt s (pfx ++ [d]))) stop)
          (initGo strings fuel
            (.node (depth + 1) (pfx ++ [c]) c (ss + 1) childStart
              (start + ((strings.drop start).take (stop - start)).countP
                (fun s => strLt s (pfx ++ [d])))) ns) := by
  simp only [initGo, if_neg hne, hh, hsucc]

theorem initGo_loop_max (strings : List (List Char)) (fuel depth : Nat) (pfx : List Char)
    (ss start childStart stop : Nat) (ns : List TrieNode) (c : Char)
    (hne : ¬childStart = stop)
    (hh : ((strings.getD childStart []).drop ss).head? = some c)
    (hsucc : charSucc c = none) :
    initGo strings (fuel + 1) (.loop depth pfx ss start childStart stop) ns
      = initGo strings fuel (.loop depth pfx ss start stop stop)
          (initGo strings fuel
            (.node (depth + 1) (pfx ++ [c]) c (ss + 1) childStart stop) ns) := by
  simp only [initGo, if_neg hne, hh, hsucc]

theorem initGo_inv (strings : List (List Char))
    (hsort : List.Pairwise (fun x y => strLt x y = true) strings) :
    ∀ fuel : Nat,
      (∀ (p : List Char) (lastChar : Char) (start stop : Nat) (ns : List TrieNode),
        start ≤ stop → stop ≤ strings.length →
        (∀ k, start ≤ k → k < stop → isPre p (strings.getD k []) = true) →
        (start < stop ∨ p = []) →
        1 + (stop - start) + 2 * remSum strings start stop p.length ≤ fuel →
        BlockInv strings
          (initGo strings fuel (.node p.length p lastChar p.length start stop) ns)
          ns.length
          (initGo strings fuel (.node p.length p lastChar p.length start stop) ns).length p
        ∧ ns.length
            < (initGo strings fuel (.node p.length p lastChar p.length start stop) ns).length)
      ∧ (∀ (p : List Char) (start childStart stop : Nat) (ns : List TrieNode),
        start ≤ childStart → childStart ≤ stop → stop ≤ strings.length →
        (∀ k, start ≤ k → k < stop → isPre p (strings.getD k []) = true) →
        (stop - childStart) + 2 * remSum strings childStart stop p.length ≤ fuel →
        ForestInv strings
          (initGo strings fuel (.loop p.length p p.length start childStart stop) ns)
          ns.length
          (initGo strings fuel (.loop p.length p p.length start childStart stop) ns).length p
        ∧ (∀ j, ns.length ≤ j →
            j < (initGo strings fuel
                  (.loop p.length p p.length start childStart stop) ns).length →
            ∃ c' t k, childStart ≤ k ∧ k < stop ∧ strings.getD k [] = p ++ c' :: t
              ∧ isPre (p ++ [c'])
                  (pfxAt strings
                    (initGo strings fuel (.loop p.length p p.length start childStart stop) ns)
                    j) = true)) := by
  intro fuel
  induction fuel with
  | zero =>
    constructor
    · intro p lastChar start stop ns _ _ _ _ hfuel
      exact absurd hfuel (by omega)
    · intro p start childStart stop ns hsc hcs hstop hpre hfuel
      simp only [initGo]
      exact ⟨forestInv_empty strings ns ns.length p, fun j hj1 hj2 => absurd hj2 (by omega)⟩
  | succ fuel ih =>
    obtain ⟨ihnode, ihloop⟩ := ih
    constructor
    · intro p lastChar start stop ns hss hstop hpre hnz hfuel
      rw [initGo_node_eq strings fuel p.length p lastChar p.length start stop ns]
      obtain ⟨hF, _⟩ := ihloop p start start stop
        (ns ++ [(⟨lastChar, (0, 0), (start, stop), p.length⟩ : TrieNode)])
        (le_refl start) hss hstop hpre (by omega)
      obtain ⟨hlenB, hgetB⟩ := initGo_pres strings fuel
        (.loop p.length p p.length start start stop)
        (ns ++ [(⟨lastChar, (0, 0), (start, stop), p.length⟩ : TrieNode)])
      set B := initGo strings fuel (.loop p.length p p.length start start stop)
        (ns ++ [(⟨lastChar, (0, 0), (start, stop), p.length⟩ : TrieNode)]) with hBdef
      simp only [List.length_append, List.length_singleton] at hF hlenB hgetB
      have hroot : B[ns.length]?
          = some (⟨lastChar, (0, 0), (start, stop), p.length⟩ : TrieNode) := by
        rw [hgetB ns.length (by omega)]
        simp
      refine ⟨blockInv_assemble strings p lastChar start stop ns.length B hpre hnz
        (by omega) hroot hF, ?_⟩
      rw [List.length_set]
      omega
    · intro p start childStart stop ns hsc hcs hstop hpre hfuel
      by_cases hcse : childStart = stop
      · subst hcse
        rw [initGo_loop_stop]
        exact ⟨forestInv_empty strings ns ns.length p, fun j hj1 hj2 => absurd hj2 (by omega)⟩
      · have hcslt : childStart < stop := lt_of_le_of_ne hcs hcse
        cases hh : ((strings.getD childStart []).drop p.length).head? with
        | none =>
          rw [initGo_loop_skip strings fuel p.length p p.length start childStart stop ns
            hcse hh]
          have hrem : remSum strings (childStart + 1) stop p.length
              ≤ remSum strings childStart stop p.length :=
            remSum_mono strings childStart (childStart + 1) stop p.length (by omega) (by omega)
          obtain ⟨hF, hCP⟩ := ihloop p start (childStart + 1) stop ns (by omega) (by omega)
            hstop hpre (by omega)
          refine ⟨hF, ?_⟩
          intro j hj1 hj2
          obtain ⟨c', t, k, hk1, hk2, hk3, hk4⟩ := hCP j hj1 hj2
          exact ⟨c', t, k, by omega, hk2, hk3, hk4⟩
        | some c =>
          have hpcs := hpre childStart hsc hcslt
          obtain ⟨ts, hts0⟩ := (isPre_iff _ _).mp hpcs
          have hh' := hh
          rw [hts0, List.drop_left] at hh'
          obtain ⟨tail, hts⟩ : ∃ tail, strings.getD childStart [] = p ++ c :: tail := by
            cases ts with
            | nil => cases hh'
            | cons c0 t0 =>
              rw [List.head?_cons] at hh'
              injection hh' with hh2
              exact ⟨t0, by rw [hts0, hh2]⟩
          cases hsucc : charSucc c with
          | some d =>
            rw [initGo_loop_succ strings fuel p.length p p.length start childStart stop ns
              c d hcse hh hsucc]
            obtain ⟨hce_le, hltm, hgem⟩ := marker_partition strings hsort start stop
              (le_trans hsc hcs) hstop (p ++ [d])
            set ce := start + ((strings.drop start).take (stop - start)).countP
              (fun s => strLt s (p ++ [d])) with hcedef
            have hcelt : childStart < ce := by
              by_contra hcon
              have h1 : strLt (strings.getD childStart []) (p ++ [d]) = true := by
                rw [hts]
                exact lt_marker_of_le hsucc p c tail (le_refl c)
              rw [hgem childStart (by omega) hcslt] at h1
              cases h1
            have hchild : ∀ k, childStart ≤ k → k < ce →
                isPre (p ++ [c]) (strings.getD k []) = true := by
              intro k hk1 hk2
              have hklt : k < stop := by omega
              rcases Nat.eq_or_lt_of_le hk1 with rfl | hk1'
              · rw [hts]
                exact isPre_append_cons p c tail
              · have hkpre := hpre k (by omega) hklt
                rcases isPre_cases hkpre with hkp | ⟨c', t, hkeq⟩
                · exfalso
                  have hso := sorted_getD hsort hk1' (by omega)
                  rw [hts, hkp] at hso
                  have h2 := strLt_self_append_cons p c tail
                  have h3 := strLt_trans _ _ _ h2 hso
                  rw [strLt_irrefl] at h3
                  cases h3
                · have hso := sorted_getD hsort hk1' (by omega)
                  rw [hts, hkeq] at hso
                  have h1 := append_cons_lt_head hso
                  have hkm := hltm k (by omega) hk2
                  rw [hkeq] at hkm
                  have h2 := le_of_lt_marker hsucc p c' t hkm
                  have hceq : c' = c := le_antisymm h2 h1
                  rw [hkeq, hceq]
                  exact isPre_append_cons p c t
            have hbeyond : ∀ k, ce ≤ k → k < stop →
                ∃ c' t, strings.getD k [] = p ++ c' :: t ∧ c < c' := by
              intro k hk1 hk2
              have hkpre := hpre k (by omega) hk2
              rcases isPre_cases hkpre with hkp | ⟨c', t, hkeq⟩
              · exfalso
                have hgm := hgem k hk1 hk2
                rw [hkp, p_lt_marker hsucc p] at hgm
                cases hgm
              · refine ⟨c', t, hkeq, ?_⟩
                have hgm := hgem k hk1 hk2
                rw [hkeq] at hgm
                exact gt_of_not_lt_marker hsucc p c' t hgm
            have hlenchild : ∀ k, childStart ≤ k → k < ce →
                p.length + 1 ≤ (strings.getD k []).length := by
              intro k hk1 hk2
              have hl := isPre_length (hchild k hk1 hk2)
              simpa using hl
            have hshift := remSum_shift_range strings childStart ce p.length (by omega)
              hlenchild
            have hsplit := remSum_split strings childStart ce stop p.length (by omega)
              (by omega)
            have hnode := ihnode (p ++ [c]) c childStart ce ns (by omega) (by omega)
              hchild (Or.inl hcelt)
              (by
                rw [show (p ++ [c]).length = p.length + 1 by simp]
                omega)
            rw [show (p ++ [c]).length = p.length + 1 by simp] at hnode
            obtain ⟨hpres_len, hpres_get⟩ := initGo_pres strings fuel
              (.loop p.length p p.length start ce stop)
              (initGo strings fuel
                (.node (p.length + 1) (p ++ [c]) c (p.length + 1) childStart ce) ns)
            set B1 := initGo strings fuel
              (.node (p.length + 1) (p ++ [c]) c (p.length + 1) childStart ce) ns with hB1def
            obtain ⟨hFloop, hCPloop⟩ := ihloop p start ce stop B1 (by omega) hce_le hstop
              hpre (by omega)
            set res := initGo strings fuel (.loop p.length p p.length start ce stop) B1
              with hresdef
            have hBres : BlockInv strings res ns.length B1.length (p ++ [c]) :=
              blockInv_congr (fun j hj1 hj2 => hpres_get j hj2) hnode.1
            have hFchar : ∀ j, B1.length ≤ j → j < res.length →
                ∃ c0, c < c0 ∧ isPre (p ++ [c0]) (pfxAt strings res j) = true := by
              intro j hj1 hj2
              obtain ⟨c0, t0, k, hk1, hk2, hk3, hk4⟩ := hCPloop j hj1 hj2
              refine ⟨c0, ?_, hk4⟩
              obtain ⟨c1, t1, hkeq, hcc⟩ := hbeyond k hk1 hk2
              rw [hk3] at hkeq
              have h5 : (c0 :: t0 : List Char) = c1 :: t1 := List.append_cancel_left hkeq
              injection h5 with h6 _
              rw [h6]
              exact hcc
            refine ⟨forestInv_merge strings p c B1.length ns res (le_of_lt hnode.2)
              hpres_len hBres hFloop hFchar, ?_⟩
            intro j hj1 hj2
            by_cases hj' : j < B1.length
            · exact ⟨c, tail, childStart, le_refl childStart, hcslt, hts,
                (hBres.1 j hj1 hj').1⟩
            · obtain ⟨c0, t0, k, hk1, hk2, hk3, hk4⟩ := hCPloop j (by omega) hj2
              exact ⟨c0, t0, k, by omega, hk2, hk3, hk4⟩
          | none =>
            rw [initGo_loop_max strings fuel p.length p p.length start childStart stop ns
              c hcse hh hsucc, initGo_loop_stop]
            have hchild : ∀ k, childStart ≤ k → k < stop →
                isPre (p ++ [c]) (strings.getD k []) = true := by
              intro k hk1 hk2
              rcases Nat.eq_or_lt_of_le hk1 with rfl | hk1'
              · rw [hts]
                exact isPre_append_cons p c tail
              · have hkpre := hpre k (by omega) hk2
                rcases isPre_cases hkpre with hkp | ⟨c', t, hkeq⟩
                · exfalso
                  have hso := sorted_getD hsort hk1' (by omega)
                  rw [hts, hkp] at hso
                  have h2 := strLt_self_append_cons p c tail
                  have h3 := strLt_trans _ _ _ h2 hso
                  rw [strLt_irrefl] at h3
                  cases h3
                · have hso := sorted_getD hsort hk1' (by omega)
                  rw [hts, hkeq] at hso
                  have h1 := append_cons_lt_head hso
                  have h2 := charSucc_none_le hsucc c'
                  have hceq : c' = c := le_antisymm h2 h1
                  rw [hkeq, hceq]
                  exact isPre_append_cons p c t
            have hlenchild : ∀ k, childStart ≤ k → k < stop →
                p.length + 1 ≤ (strings.getD k []).length := by
              intro k hk1 hk2
              have hl := isPre_length (hchild k hk1 hk2)
              simpa using hl
            have hshift := remSum_shift_range strings childStart stop p.length (by omega)
              hlenchild
            have hnode := ihnode (p ++ [c]) c childStart stop ns (by omega) hstop
              hchild (Or.inl hcslt)
              (by
                rw [show (p ++ [c]).length = p.length + 1 by simp]
                omega)
            rw [show (p ++ [c]).length = p.length + 1 by simp] at hnode
            refine ⟨blockInv_to_forest strings p c ns.length _ _ hnode.1, ?_⟩
            intro j hj1 hj2
            exact ⟨c, tail, childStart, le_refl childStart, hcslt, hts,
              (hnode.1.1 j hj1 hj2).1⟩

/-- C6: for every trie built by Trie::new from any dataset and every pair of
node indices (i, j), node i's id equals its index (so id equals
descendant_range.start - 1), descendant_range.start is id + 1, and j lies
strictly inside i's descendant range exactly when the prefix represented by
node i is a proper prefix of the prefix represented by node j - the
range-encoded descendant relation coincides with the proper-prefix
relation. -/
theorem c6_descendant_range_iff (source : List (List Char)) (i j : Nat)
    (hi : i < (Trie.new source).nodes.length) (hj : j < (Trie.new source).nodes.length) :
    ((Trie.new source).nodes.getD i default).nodeId = i
    ∧ ((Trie.new source).nodes.getD i default).descendantRange.1 = i + 1
    ∧ ((i < j ∧ j < ((Trie.new source).nodes.getD i default).descendantRange.2)
        ↔ (isPre (nodePfx (Trie.new source) i) (nodePfx (Trie.new source) j) = true
           ∧ nodePfx (Trie.new source) i ≠ nodePfx (Trie.new source) j)) := by
  obtain ⟨hblock, _⟩ :=
    (initGo_inv (dedupAdj (insSort strLe source)) (sorted_trieStrings source)
      (buildFuel (dedupAdj (insSort strLe source)))).1
      [] (Char.ofNat 0) 0 (dedupAdj (insSort strLe source)).length []
      (Nat.zero_le _) (le_refl _) (fun k _ _ => isPre_nil _) (Or.inr rfl)
      (by
        have hall := remSum_all (dedupAdj (insSort strLe source))
        show 1 + ((dedupAdj (insSort strLe source)).length - 0)
            + 2 * remSum (dedupAdj (insSort strLe source)) 0
                (dedupAdj (insSort strLe source)).length (List.length [])
          ≤ (dedupAdj (insSort strLe source)).length
            + 2 * ((dedupAdj (insSort strLe source)).map List.length).sum + 2
        simp only [List.length_nil]
        omega)
  obtain ⟨_, _, hiff⟩ := hblock
  have hgd : (Trie.new source).nodes[i]? = some ((Trie.new source).nodes[i]) :=
    List.getElem?_eq_getElem hi
  obtain ⟨hdr1, _⟩ := trieNew_dr source i _ hgd
  have hgetd : (Trie.new source).nodes.getD i default = (Trie.new source).nodes[i] := by
    rw [List.getD_eq_getElem?_getD, hgd]
    rfl
  refine ⟨?_, ?_, ?_⟩
  · rw [hgetd]
    simp only [TrieNode.nodeId]
    rw [hdr1]
    omega
  · rw [hgetd]
    exact hdr1
  · exact hiff i j (Nat.zero_le i) hi (Nat.zero_le j) hj

/-- Witness for C6 on the dataset {"a", "ab"}: the built trie has three
nodes (root, "a", "ab"); node 2 ("ab") lies in the root's descendant range
and the root's empty prefix is a proper prefix of "ab". -/
theorem c6_descendant_range_iff_witness :
    0 < (Trie.new [['a'], ['a', 'b']]).nodes.length
    ∧ 2 < (Trie.new [['a'], ['a', 'b']]).nodes.length
    ∧ (((Trie.new [['a'], ['a', 'b']]).nodes.getD 0 default).nodeId = 0
      ∧ ((Trie.new [['a'], ['a', 'b']]).nodes.getD 0 default).descendantRange.1 = 0 + 1
      ∧ ((0 < 2 ∧ 2 < ((Trie.new [['a'], ['a', 'b']]).nodes.getD 0 default).descendantRange.2)
          ↔ (isPre (nodePfx (Trie.new [['a'], ['a', 'b']]) 0)
                (nodePfx (Trie.new [['a'], ['a', 'b']]) 2) = true
             ∧ nodePfx (Trie.new [['a'], ['a', 'b']]) 0
                ≠ nodePfx (Trie.new [['a'], ['a', 'b']]) 2))) :=
  ⟨by decide, by decide,
    c6_descendant_range_iff [['a'], ['a', 'b']] 0 2 (by decide) (by decide)⟩
